import Mathlib

/-!
Verification of the `file-aranger` repository: a shallow embedding of its
path utilities, safe-move engine, extension router, deduplicator, flattener,
archive/empty/large-file scanners and tree walker, together with theorems
settling the specification claims about them.

Paths are modelled with POSIX separators (`/`), which is the semantics of
`node:path` on the platforms the traversal code targets.  Filesystem effects
are modelled either as an explicit map from paths to contents (for the
safe-move engine) or as an explicit list of performed mutation actions
(for the higher-level operations, whose only mutations go through
`safeMove` / `unlink` / `mkdir` / `rmdir` calls that the models record).
-/

namespace FileArranger

/-! ## String and path helpers (`src/utils/helper.ts`) -/

/-- Split a character list on a separator character; `"a/b"` gives `[a, b]`,
keeping empty segments as `[]` entries. -/
def splitOnChar (sep : Char) : List Char → List (List Char)
  | [] => [[]]
  | c :: cs =>
    let r := splitOnChar sep cs
    if c = sep then [] :: r
    else
      match r with
      | [] => [[c]]
      | s :: ss => (c :: s) :: ss

/-- Resolve `.` and `..` segments the way POSIX `path.normalize` does.
`acc` holds already-emitted segments in reverse. -/
def normSegs (isAbs : Bool) : List (List Char) → List (List Char) → List (List Char)
  | acc, [] => acc.reverse
  | acc, s :: rest =>
    if s = [] ∨ s = ['.'] then normSegs isAbs acc rest
    else if s = ['.', '.'] then
      match acc with
      | [] => if isAbs then normSegs isAbs [] rest else normSegs isAbs [['.', '.']] rest
      | t :: ts =>
        if t = ['.', '.'] then normSegs isAbs (s :: t :: ts) rest
        else normSegs isAbs ts rest
    else normSegs isAbs (s :: acc) rest

/-- POSIX `path.normalize` on slash-separated paths: collapses repeated
separators and resolves `.` / `..` segments.  (Trailing-separator
preservation is not modelled; no call site in the claims produces one.) -/
def posixNormalize (s : String) : String :=
  let cs := s.data
  let isAbs := cs.head? = some '/'
  let segs := normSegs isAbs [] (splitOnChar '/' cs)
  let body := (segs.intersperse ['/']).flatten
  if isAbs then ⟨'/' :: body⟩
  else if body = [] then "."
  else ⟨body⟩

/-- `path.replace(/\\/g, "/")`. -/
def replaceBackslash (cs : List Char) : List Char :=
  cs.map (fun c => if c = '\\' then '/' else c)

/-- One global non-overlapping pass of `path.replace(/\/\//g, "/")`. -/
def collapseDoubleSlash : List Char → List Char
  | '/' :: '/' :: rest => '/' :: collapseDoubleSlash rest
  | c :: rest => c :: collapseDoubleSlash rest
  | [] => []

/-- `normalizePath` from `src/utils/helper.ts`: `sp.normalize`, then
backslash-to-slash replacement, then double-slash collapsing with the
leading-`//` re-prepend. -/
def normalizePath (path : String) : String :=
  let p := posixNormalize path
  let cs := replaceBackslash p.data
  let prepend := cs.take 2 = ['/', '/']
  let cs' := collapseDoubleSlash cs
  if prepend then ⟨'/' :: cs'⟩ else ⟨cs'⟩

/-- `String.prototype.toLowerCase`, character by character. -/
def lowerString (s : String) : String :=
  ⟨s.data.map Char.toLower⟩

/-- `normalizeExt` from `src/utils/helper.ts`: strip a leading dot and
lowercase. -/
def normalizeExt (ext : String) : String :=
  match ext.data with
  | '.' :: rest => ⟨rest.map Char.toLower⟩
  | cs => ⟨cs.map Char.toLower⟩

/-- Helper for `extname`: scan the reversed name for the last dot,
accumulating the suffix; a dot in first position (hidden files) yields
no extension, as in `node:path`. -/
def extnameAux : List Char → List Char → Option (List Char)
  | [], _ => none
  | c :: rest, acc =>
    if c = '.' then (if rest = [] then none else some ('.' :: acc))
    else extnameAux rest (c :: acc)

/-- `sp.extname` on a directory-entry name (no separators): the substring
from the last dot, or `""`. -/
def extname (name : String) : String :=
  match extnameAux name.data.reverse [] with
  | some cs => ⟨cs⟩
  | none => ""

/-- `sp.join` of two parts (POSIX): concatenate with a separator and
normalize, with `node:path`'s empty-part handling. -/
def joinPath (a b : String) : String :=
  if a = "" ∧ b = "" then "."
  else if a = "" then posixNormalize b
  else if b = "" then posixNormalize a
  else posixNormalize (a ++ "/" ++ b)

/-- Portion of a path after the last separator. -/
def basenameOnly (p : String) : String :=
  ⟨(splitOnChar '/' p.data).getLastD []⟩

/-- Whether `cs` ends with `suff`, on character lists. -/
def endsWithChars (cs suff : List Char) : Bool :=
  cs.reverse.take suff.length = suff.reverse

/-- `sp.basename(p, ext)`: base name with a trailing `ext` stripped when it
matches (case-sensitively) and is not the whole base name. -/
def basenameSuffix (p : String) (ext : String) : String :=
  let b := basenameOnly p
  if endsWithChars b.data ext.data ∧ b ≠ ext then
    ⟨b.data.take (b.data.length - ext.data.length)⟩
  else b

/-! ## Core data model (`src/utils/types.ts`) -/

/-- `FileNode` from `src/utils/types.ts`.  `mtime` is epoch milliseconds
when present. -/
structure FileNode where
  fullPath : String
  name : String
  ext : String
  size : Nat
  dir : String
  mtime : Option Int := none
  deriving DecidableEq, Repr

/-- `FileError` from `src/utils/types.ts`. -/
structure FileError where
  file : String
  error : String
  deriving DecidableEq, Repr

/-- `OperationStats` from `src/utils/types.ts`. -/
structure OperationStats where
  scanned : Nat
  moved : Nat
  skipped : Nat
  errors : List FileError
  deriving DecidableEq, Repr

/-- `MediaRules`: a category-name to extension-list record, modelled as an
association list in JS object key order. -/
abbrev MediaRules := List (String × List String)

/-! ## The safe-move engine (`move` in `src/utils/helper.ts`) -/

/-- The filesystem as a finite map from (normalized) file paths to content
identifiers, in creation order. -/
abbrev FS := List (String × Nat)

/-- Look a path up in the file map. -/
def fsLookup : FS → String → Option Nat
  | [], _ => none
  | (q, c) :: rest, p => if q = p then some c else fsLookup rest p

/-- Remove a path from the file map. -/
def fsErase (fs : FS) (p : String) : FS :=
  fs.filter (fun e => e.1 ≠ p)

/-- Bind a path in the file map, replacing any previous binding. -/
def fsInsert (fs : FS) (p : String) (c : Nat) : FS :=
  fsErase fs p ++ [(p, c)]

/-- Shallow embedding of `move` from `src/utils/helper.ts` (lines 210-231).
The source wraps its destination-existence check as

`try { await fs.access(dest); throw new Error(...); } catch {}`

so both the `access` rejection (destination absent) and the explicit
`throw` (destination present) are swallowed by the empty `catch`, and
control always reaches `fs.rename`, whose POSIX semantics replace an
existing destination.  The `EXDEV` copy fallback cannot trigger in a
single-device model and is therefore not reachable here. -/
def move (fs : FS) (src dest : String) : Except String FS :=
  let src' := normalizePath src
  let dest' := normalizePath dest
  -- await fs.mkdir(sp.dirname(dest), { recursive: true }): no effect on the file map
  let destCheck : Except String Unit :=
    tryCatch
      (do
        (if (fsLookup fs dest').isSome then pure ()
         else throw ("ENOENT: no such file, access " ++ dest'))
        throw ("File already exists: " ++ dest'))
      (fun _ => pure ())
  match destCheck with
  | .error e => .error e
  | .ok _ =>
    match fsLookup fs src' with
    | none => .error ("ENOENT: no such file, rename " ++ src')
    | some c => .ok (fsInsert (fsErase fs src') dest' c)

/-! ## Extension router and `arrange` (`src/src/core/arrange.ts`) -/

/-- Look a key up in a string association list (JS `Map.get`). -/
def lookupStr : List (String × String) → String → Option String
  | [], _ => none
  | (k, v) :: rest, q => if k = q then some v else lookupStr rest q

/-- Keys of a string association list, in order. -/
def keysOf (m : List (String × String)) : List String :=
  m.map Prod.fst

/-- Modelled from the spec: the system default rule table `mediaTypes` from
`utils/names.ts`, which is not among the provided sources; categories and
extension lists follow the spec's category enumeration and the repository
README's default-rules table. -/
def mediaTypes : MediaRules :=
  [("Images", ["jpg", "jpeg", "png", "gif", "bmp", "svg", "webp", "ico"]),
   ("Videos", ["mp4", "avi", "mov", "wmv", "flv", "mkv", "webm", "m4v"]),
   ("Audio", ["mp3", "wav", "flac", "aac", "ogg", "wma", "m4a"]),
   ("Documents", ["pdf", "doc", "docx", "txt", "rtf", "odt", "xls", "xlsx", "ppt", "pptx"]),
   ("Archives", ["zip", "rar", "7z", "tar", "gz", "bz2", "xz"]),
   ("Code", ["js", "ts", "py", "java", "c", "cpp", "cs", "go", "rs", "php", "html", "css"])]

/-- JS object-key assignment on an association list: replace in place when
the key exists, append otherwise. -/
def setRule (m : MediaRules) (k : String) (v : List String) : MediaRules :=
  if m.any (fun e => e.1 = k) then m.map (fun e => if e.1 = k then (k, v) else e)
  else m ++ [(k, v)]

/-- `resolveRules` from `src/src/core/arrange.ts`: with user rules, every
lowercased user extension is stripped from all system categories (the
system entries themselves are compared verbatim against that lowercased
set), then each user category replaces or appends its entry verbatim. -/
def resolveRules (user : Option MediaRules) : MediaRules :=
  match user with
  | none => mediaTypes
  | some u =>
    let token := ((u.map Prod.snd).flatten).map lowerString
    let stripped := mediaTypes.map (fun p => (p.1, p.2.filter (fun ext => ¬ token.contains ext)))
    u.foldl (fun acc p => setRule acc p.1 p.2) stripped

/-- Inner loop of `buildExtMap`: add one category's extensions, failing on
an extension that is already mapped. -/
def addExts (folder : String) : List (String × String) → List String → Except String (List (String × String))
  | m, [] => .ok m
  | m, e :: es =>
    if (lookupStr m e).isSome then .error ("Extension \"" ++ e ++ "\" assigned twice")
    else addExts folder (m ++ [(e, folder)]) es

/-- Fold of `buildExtMap` over the category entries. -/
def buildExtMapGo : List (String × String) → MediaRules → Except String (List (String × String))
  | m, [] => .ok m
  | m, (folder, exts) :: rest =>
    match addExts folder m exts with
    | .error e => .error e
    | .ok m' => buildExtMapGo m' rest

/-- `buildExtMap` from `src/src/core/arrange.ts`: extension-to-folder
lookup, throwing on a duplicate assignment. -/
def buildExtMap (rules : MediaRules) : Except String (List (String × String)) :=
  buildExtMapGo [] rules

/-- `MovePlan` entry as produced by the router. -/
structure MovePlan where
  file : FileNode
  destDir : String
  destPath : String
  deriving DecidableEq, Repr

/-- The closure returned by `createRouter`: unmatched extensions fall back
to the literal folder name `"others"`. -/
def routeFile (extMap : List (String × String)) (f : FileNode) (baseDir : String) : MovePlan :=
  let folder := (lookupStr extMap f.ext).getD "others"
  let destDir := normalizePath (joinPath baseDir folder)
  let destPath := normalizePath (joinPath destDir f.name)
  { file := f, destDir := destDir, destPath := destPath }

/-- One `FileNode` as `intialBuildState` builds it from a directory entry:
the extension is `normalizeExt(sp.extname(entry.name))`. -/
def mkFileNode (dir name : String) (size : Nat) : FileNode :=
  { dir := dir, name := name,
    fullPath := normalizePath (joinPath dir name),
    ext := normalizeExt (extname name), size := size }

/-- Whether one `safeMove` call succeeds (`.ok`) or throws with a message;
abstracts the filesystem outcome of each attempted move. -/
abbrev Mover := String → String → Except String Unit

/-- A mover on which every move succeeds. -/
def perfectMover : Mover := fun _ _ => .ok ()

/-- The per-plan-entry loop of `arrange`, threading the stats and the list
of `(src, dest)` pairs actually passed to `safeMove`. -/
def arrangeLoop (dryRun : Bool) (mover : Mover) :
    List MovePlan → OperationStats → List (String × String) → OperationStats × List (String × String)
  | [], stats, acts => (stats, acts)
  | mv :: rest, stats, acts =>
    let src := normalizePath mv.file.fullPath
    let dest := normalizePath mv.destPath
    if src = dest then
      arrangeLoop dryRun mover rest { stats with skipped := stats.skipped + 1 } acts
    else if dryRun then
      arrangeLoop dryRun mover rest { stats with moved := stats.moved + 1 } acts
    else
      match mover src dest with
      | .ok _ =>
        arrangeLoop dryRun mover rest { stats with moved := stats.moved + 1 } (acts ++ [(src, dest)])
      | .error e =>
        arrangeLoop dryRun mover rest { stats with errors := stats.errors ++ [⟨src, e⟩] } (acts ++ [(src, dest)])

/-- `arrange` from `src/src/core/arrange.ts` (lines 103-170).  The walk of
the immediate directory (`intialBuildState`) is the `files` input; `isDir`
is the outcome of the `isDirectory(path)` probe.  The second component
lists the `safeMove` calls performed — the operation's only filesystem
mutations. -/
def arrange (isDir : Bool) (files : List FileNode) (user : Option MediaRules)
    (dryRun : Bool) (path : String) (mover : Mover) :
    Except String OperationStats × List (String × String) :=
  let stats : OperationStats := ⟨0, 0, 0, []⟩
  if isDir = false then (.error ("Path '" ++ path ++ "' is not a directory"), [])
  else if files = [] then (.ok stats, [])
  else
    match buildExtMap (resolveRules user) with
    | .error e => (.error e, [])
    | .ok extMap =>
      let plan := files.map (fun f => routeFile extMap f path)
      let r := arrangeLoop dryRun mover plan { stats with scanned := files.length } []
      (.ok r.1, r.2)

/-! ## Flatten name resolution (`resolveNames` in `src/src/core/flat.ts`) -/

/-- `ConflictStrategy` from `src/utils/types.ts`. -/
inductive ConflictStrategy where
  | rename
  | overwrite
  | skip
  deriving DecidableEq, Repr

/-- One planned flatten move. -/
structure FlatPlan where
  src : String
  dest : String
  deriving DecidableEq, Repr

/-- Look a key up in the `used` counter map (JS `Map.get`). -/
def lookupNat : List (String × Nat) → String → Option Nat
  | [], _ => none
  | (k, v) :: rest, q => if k = q then some v else lookupNat rest q

/-- `Map.set` on the counter map: overwrite in place, or append a new key. -/
def setNat (m : List (String × Nat)) (k : String) (v : Nat) : List (String × Nat) :=
  if m.any (fun e => e.1 = k) then m.map (fun e => if e.1 = k then (k, v) else e)
  else m ++ [(k, v)]

/-- The computed destination file name `${base}${ext}` of a file, before
collision handling. -/
def finalNameOf (f : FileNode) : String :=
  basenameSuffix f.name ("." ++ f.ext) ++ ("." ++ f.ext)

/-- `resolveNames` from `src/src/core/flat.ts`, with the closure-captured
`used` map made an explicit accumulator.  The source's local bindings
`ext`, `base`, `finalName`, `counter` are inlined: `ext` is
`"." ++ f.ext`, `base` is `basenameSuffix f.name ext`, and `finalName`
(`base ++ ext`) is `finalNameOf f`. -/
def resolveNamesGo (destRoot : String) (conflict : ConflictStrategy)
    (used : List (String × Nat)) : List FileNode → List FlatPlan
  | [] => []
  | f :: rest =>
    match conflict with
    | .overwrite =>
      { src := f.fullPath, dest := normalizePath (joinPath destRoot (finalNameOf f)) }
        :: resolveNamesGo destRoot conflict used rest
    | .skip =>
      { src := f.fullPath, dest := normalizePath (joinPath destRoot (finalNameOf f)) }
        :: resolveNamesGo destRoot conflict used rest
    | .rename =>
      match lookupNat used (finalNameOf f) with
      | some c =>
        { src := f.fullPath,
          dest := normalizePath (joinPath destRoot
            (basenameSuffix f.name ("." ++ f.ext) ++ "-(" ++
              toString (if c + 1 = 1 then 2 else c + 1 + 1) ++ ")" ++ ("." ++ f.ext))) }
          :: resolveNamesGo destRoot conflict (setNat used (finalNameOf f) (c + 1)) rest
      | none =>
        { src := f.fullPath, dest := normalizePath (joinPath destRoot (finalNameOf f)) }
          :: resolveNamesGo destRoot conflict (setNat used (finalNameOf f) 0) rest

/-- `resolveNames` entry point: the `used` map starts empty. -/
def resolveNames (destRoot : String) (files : List FileNode)
    (conflict : ConflictStrategy) : List FlatPlan :=
  resolveNamesGo destRoot conflict [] files

/-- The `used`-map update performed by one `rename` step (both branches of
the source's collision handling). -/
def stepUsed (used : List (String × Nat)) (f : FileNode) : List (String × Nat) :=
  match lookupNat used (finalNameOf f) with
  | some c => setNat used (finalNameOf f) (c + 1)
  | none => setNat used (finalNameOf f) 0

/-- The `used` map after processing a list of files under `rename`. -/
def usedOf (files : List FileNode) : List (String × Nat) :=
  files.foldl stepUsed []

/-- How many files of a list share a given computed destination name. -/
def countFinal (files : List FileNode) (n : String) : Nat :=
  files.countP (fun g => finalNameOf g = n)

/-- The destination the spec's words assign to the `i`-th file (1-based)
colliding on one destination name: the first keeps `base ++ ext`, the
`i`-th (`i ≥ 2`) becomes `base-(i).ext`. -/
def renameEntry (destRoot : String) (f : FileNode) (i : Nat) : FlatPlan :=
  let ext := "." ++ f.ext
  let base := basenameSuffix f.name ext
  { src := f.fullPath,
    dest := normalizePath (joinPath destRoot
      (if i = 1 then base ++ ext else base ++ "-(" ++ toString i ++ ")" ++ ext)) }

/-- Three identical files for the dedupe witnesses. -/
def dupFileX : FileNode := ⟨"r/x/f.bin", "f.bin", "bin", 1, "r/x", none⟩

/-- Second identical file. -/
def dupFileY : FileNode := ⟨"r/y/f.bin", "f.bin", "bin", 1, "r/y", none⟩

/-- Third identical file. -/
def dupFileZ : FileNode := ⟨"r/z/f.bin", "f.bin", "bin", 1, "r/z", none⟩

/-- `a.txt` in subdirectory `x`. -/
def flatFileA : FileNode :=
  { fullPath := "r/x/a.txt", name := "a.txt", ext := "txt", size := 1, dir := "r/x" }

/-- `a.txt` in subdirectory `y`. -/
def flatFileB : FileNode :=
  { fullPath := "r/y/a.txt", name := "a.txt", ext := "txt", size := 1, dir := "r/y" }

/-- The extension-to-folder lookup computed from the system default rules. -/
def defaultExtMap : List (String × String) :=
  ((buildExtMap (resolveRules none)).toOption).getD []

/-- A user rule set whose single category lists its extension in upper
case. -/
def cexUserRules : MediaRules := [("Docs", ["TXT"])]

/-- The extension-to-folder lookup computed from `cexUserRules`. -/
def cexExtMap : List (String × String) :=
  ((buildExtMap (resolveRules (some cexUserRules))).toOption).getD []

/-! ## Large-file finder (`findLargeFiles`, unnamed source part 003) -/

/-- One entry of the large-file report. -/
structure LargeFile where
  path : String
  sizeMB : String
  sizeBytes : Nat
  deriving DecidableEq, Repr

/-- `LargeFinderState`: `errors` is an *optional* field that the source
never initializes. -/
structure LargeFinderState where
  limit : Int
  matched : Nat
  errors : Option (List FileError)
  filesPath : List LargeFile
  deriving DecidableEq, Repr

/-- `xs?.push(...)` on an optional array: a no-op when it is undefined. -/
def optPush (o : Option (List FileError)) (es : List FileError) : Option (List FileError) :=
  match o with
  | none => none
  | some l => some (l ++ es)

/-- Stable insertion into a descending-by-`sizeBytes` list. -/
def insertDesc (a : LargeFile) : List LargeFile → List LargeFile
  | [] => [a]
  | b :: bs => if b.sizeBytes ≤ a.sizeBytes then a :: b :: bs else b :: insertDesc a bs

/-- The observable behavior of ES2019 `Array.prototype.sort` with
comparator `(a, b) => b.sizeBytes - a.sizeBytes`: a stable descending
sort by size. -/
def sortDesc : List LargeFile → List LargeFile
  | [] => []
  | x :: xs => insertDesc x (sortDesc xs)

/-- `findLargeFiles` (unnamed source part 003).  The walk outcome is the
`(walkFiles, walkErrors)` input; `fmt` abstracts `formatSize`, whose
definition is not among the provided sources.  Note `errors` starts out
absent and `result.errors?.push(...errors)` cannot create it. -/
def findLargeFiles (isDir : Bool) (walkFiles : List FileNode) (walkErrors : List FileError)
    (fmt : Nat → String) (root : String) (minSizeMB : Int) (limit : Int) :
    Except String LargeFinderState :=
  if isDir = false then .error ("Path '" ++ root ++ "' is not a directory")
  else if minSizeMB ≤ 0 then .error "minSizeMB must be greater than 0"
  else if limit ≤ 0 then .error "limit must be greater than 0"
  else
    let bytes : Int := minSizeMB * 1024 ^ 2
    let result : LargeFinderState :=
      { limit := limit, matched := 0, errors := none, filesPath := [] }
    let result :=
      if walkErrors.length > 0 then
        { result with errors := optPush result.errors walkErrors }
      else result
    if walkFiles = [] then .ok result
    else
      let largeFiles := sortDesc
        ((walkFiles.filter (fun f => (f.size : Int) ≥ bytes)).map
          (fun f => { path := f.fullPath, sizeMB := fmt f.size, sizeBytes := f.size }))
      { result with filesPath := largeFiles.take limit.toNat, matched := largeFiles.length }
        |> .ok

/-! ## Deduplicator (`src/src/core/dedupe.ts`) -/

/-- `DedupeStrategy` from `src/utils/types.ts`. -/
inductive DedupeStrategy where
  | canonical
  | oldest
  | newest
  | shortestPath
  | longestPath
  | first
  deriving DecidableEq, Repr

/-- `DedupeOptions` (callbacks and logging omitted: they are synchronous
observers with no effect on results). -/
structure DedupeOptions where
  strategy : Option DedupeStrategy
  canonicalPath : Option String
  dryRun : Bool
  ignorePatterns : List String
  deleteEmpty : Bool
  deriving Repr

/-- One reported duplicate group.  The digest is modelled as the abstract
hash value (a byte list). -/
structure DedupeGroupInfo where
  hash : List Nat
  canonical : FileNode
  duplicates : List FileNode
  spaceSaved : Nat
  deriving DecidableEq, Repr

/-- `DedupeResult` from `src/utils/types.ts`. -/
structure DedupeResult where
  scannedFiles : Nat
  duplicateGroups : Nat
  filesDeleted : Nat
  spaceSaved : Nat
  errors : List FileError
  groups : List DedupeGroupInfo
  deriving DecidableEq, Repr

/-- Whether the character list starts with the given needle. -/
def startsWithChars : List Char → List Char → Bool
  | _, [] => true
  | [], _ :: _ => false
  | c :: cs, d :: ds => c = d && startsWithChars cs ds

/-- `String.prototype.includes`: contiguous-substring containment of
`sub` in the second argument. -/
def containsSub (sub : List Char) : List Char → Bool
  | [] => startsWithChars [] sub
  | c :: rest => startsWithChars (c :: rest) sub || containsSub sub rest

/-- `shouldIgnore`: the ad-hoc glob test is abstracted by `matcher`
(pattern, normalized path); the `includes` fallback is literal substring
containment. -/
def shouldIgnore (filePath : String) (patterns : List String)
    (matcher : String → String → Bool) : Bool :=
  if patterns = [] then false
  else patterns.any (fun pattern =>
    matcher pattern (normalizePath filePath) ||
      containsSub pattern.data (normalizePath filePath).data)

/-- The JS `Map` grouping step: append to the key's group, or create the
group at the end. -/
def insertGroup {κ : Type} [DecidableEq κ] :
    List (κ × List FileNode) → κ → FileNode → List (κ × List FileNode)
  | [], k, f => [(k, [f])]
  | (k', g) :: rest, k, f =>
    if k' = k then (k', g ++ [f]) :: rest else (k', g) :: insertGroup rest k f

/-- Grouping a file list by a key, in JS `Map` insertion order (the
source's `for`-loop filling `sizeMap` / `hashMap`). -/
def groupByKey {κ : Type} [DecidableEq κ] (key : FileNode → κ)
    (files : List FileNode) : List (κ × List FileNode) :=
  files.foldl (fun m f => insertGroup m (key f) f) []

/-- The strategy actually used: the destructuring default
`strategy = canonicalPath ? "canonical" : "first"`. -/
def effectiveStrategy (opts : DedupeOptions) : DedupeStrategy :=
  opts.strategy.getD (if opts.canonicalPath.isSome then .canonical else .first)

/-- `chooseCanonical` from `src/src/core/dedupe.ts`.  JS `reduce` on a
non-empty array is `foldl` over the tail; on the empty array it throws —
unreachable here because `dedupe` only passes groups of length ≥ 2, and
modelled with the corresponding `.error`. -/
def chooseCanonical (files : List FileNode) (opts : DedupeOptions) : Except String FileNode :=
  match effectiveStrategy opts with
  | .canonical =>
    match opts.canonicalPath with
    | none => .error "canonicalPath is required for 'canonical' strategy"
    | some cp =>
      match files.find? (fun f => f.fullPath.startsWith cp) with
      | some preferred => .ok preferred
      | none =>
        match files with
        | [] => .error "undefined canonical member"
        | f :: _ => .ok f
  | .oldest =>
    match files with
    | [] => .error "Reduce of empty array with no initial value"
    | f :: rest =>
      .ok (rest.foldl (fun oldest current =>
        match current.mtime, oldest.mtime with
        | some a, some b => if a < b then current else oldest
        | _, _ => oldest) f)
  | .newest =>
    match files with
    | [] => .error "Reduce of empty array with no initial value"
    | f :: rest =>
      .ok (rest.foldl (fun newest current =>
        match current.mtime, newest.mtime with
        | some a, some b => if a > b then current else newest
        | _, _ => newest) f)
  | .shortestPath =>
    match files with
    | [] => .error "Reduce of empty array with no initial value"
    | f :: rest =>
      .ok (rest.foldl (fun shortest current =>
        if current.fullPath.length < shortest.fullPath.length then current else shortest) f)
  | .longestPath =>
    match files with
    | [] => .error "Reduce of empty array with no initial value"
    | f :: rest =>
      .ok (rest.foldl (fun longest current =>
        if current.fullPath.length > longest.fullPath.length then current else longest) f)
  | .first =>
    match files with
    | [] => .error "undefined canonical member"
    | f :: _ => .ok f

/-- The accumulator threaded through the duplicate-group loop: the result
so far and the paths passed to `fs.unlink`. -/
structure DedupeAcc where
  res : DedupeResult
  unlinked : List String

/-- Process one duplicate group: choose the canonical member, report the
group, and delete (or, in dry-run, merely count) every non-canonical
member.  `fs.unlink` succeeds on every path in this model, so the
per-deletion `catch` is unreachable. -/
def processGroup (opts : DedupeOptions) (acc : DedupeAcc)
    (hash : List Nat) (group : List FileNode) : DedupeAcc :=
  match chooseCanonical group opts with
  | .error msg =>
    { acc with res := { acc.res with errors := acc.res.errors ++
        [⟨"group:" ++ ⟨(toString hash).data.take 8⟩, msg⟩] } }
  | .ok canonical =>
    let duplicates := group.filter (fun f => ¬ f = canonical)
    let info : DedupeGroupInfo :=
      { hash := hash, canonical := canonical, duplicates := duplicates,
        spaceSaved := duplicates.foldl (fun sum f => sum + f.size) 0 }
    { res := { acc.res with
        groups := acc.res.groups ++ [info],
        filesDeleted := acc.res.filesDeleted + duplicates.length,
        spaceSaved := acc.res.spaceSaved + duplicates.foldl (fun sum f => sum + f.size) 0 },
      unlinked := acc.unlinked ++
        (if opts.dryRun then [] else duplicates.map (fun f => f.fullPath)) }

/-- `dedupe` from `src/src/core/dedupe.ts`.  The walk outcome is the
`(walkFiles, walkErrors)` input; `readFile` is the byte content the
hashing stream reads at a path, and `hashFn` abstracts the SHA-256
digest.  Returns the result, the unlink calls performed (the operation's
file mutations), and whether `deleteEmptyDirs` was invoked. -/
def dedupe (isDir : Bool) (walkFiles : List FileNode) (walkErrors : List FileError)
    (root : String) (opts : DedupeOptions) (readFile : String → List Nat)
    (hashFn : List Nat → List Nat) (matcher : String → String → Bool) :
    Except String DedupeResult × List String × Bool :=
  if isDir = false then (.error ("Path '" ++ root ++ "' is not a directory"), [], false)
  else
    let result0 : DedupeResult :=
      { scannedFiles := 0, duplicateGroups := 0, filesDeleted := 0,
        spaceSaved := 0, errors := walkErrors, groups := [] }
    let filteredFiles := walkFiles.filter
      (fun file => ¬ shouldIgnore file.fullPath opts.ignorePatterns matcher)
    let result0 := { result0 with scannedFiles := filteredFiles.length }
    if filteredFiles = [] then (.ok result0, [], false)
    else
      let sizeMap := groupByKey (fun f => f.size) filteredFiles
      let potentialDuplicates := (sizeMap.map (fun p => p.2)).filter (fun g => g.length > 1)
      -- the source's nested hashing loop inserts every file of every
      -- size group in order, i.e. iterates their concatenation
      let hashMap := groupByKey (fun f => hashFn (readFile f.fullPath))
        potentialDuplicates.flatten
      let duplicateGroups := hashMap.filter (fun p => p.2.length > 1)
      let result0 := { result0 with duplicateGroups := duplicateGroups.length }
      let acc := duplicateGroups.foldl
        (fun acc p => processGroup opts acc p.1 p.2) ⟨result0, []⟩
      (.ok acc.res, acc.unlinked, opts.deleteEmpty && !opts.dryRun)

/-! ## Tree walker (`walk` in `src/src/core/handlers.ts`) -/

mutual
/-- A directory entry as `readdir(..., { withFileTypes: true })` reports
it.  A genuine directory carries the unique identifier of its real
(symlink-free) path — `fs.realpath` output — plus its entries; a symlink
dirent records its target's identifier but answers `false` to both
`isDirectory()` and `isFile()`, which is how Node reports symlinks when
`withFileTypes` is set. -/
inductive FsEntry where
  | file : String → Nat → Option Int → FsEntry
  | dir : String → Nat → FsEntryList → FsEntry
  | symlink : String → Nat → FsEntry

/-- A directory's entry list, in `readdir` order. -/
inductive FsEntryList where
  | nil : FsEntryList
  | cons : FsEntry → FsEntryList → FsEntryList
end

/-- The `FileNode` the walk pushes for a regular-file dirent `n` found in
the directory at path `real`. -/
def walkFileNode (real n : String) (sz : Nat) (mt : Option Int) : FileNode :=
  { dir := real,
    ext := normalizeExt (extname (normalizePath (joinPath real n))),
    fullPath := normalizePath (joinPath real n),
    name := n, size := sz, mtime := mt }

mutual
/-- `walk` from `src/src/core/handlers.ts` on one directory whose real
path has identifier `rid` and path string `real`: the visited check and
insertion, the depth check (`depth = 0` means unlimited), then the entry
loop.  The walk's only error sources are `readdir`/`stat` failures,
which the filesystem model does not produce, so `errs` is threaded
unchanged. -/
def walkDir (rid : Nat) (children : FsEntryList) (real : String)
    (depth level : Nat) (res : List FileNode) (visited : List Nat)
    (errs : List FileError) : List FileNode × List Nat × List FileError :=
  if rid ∈ visited then (res, visited, errs)
  else
    let visited' := rid :: visited
    if depth ≠ 0 ∧ depth < level then (res, visited', errs)
    else walkEntries children real depth level res visited' errs
termination_by (sizeOf children, 1)

/-- The `for` loop over one directory's entries: a directory dirent
recurses one level deeper, a file dirent appends a `FileNode`, and a
symlink dirent matches neither `entry.isDirectory()` nor
`entry.isFile()` and is skipped. -/
def walkEntries (es : FsEntryList) (real : String) (depth level : Nat)
    (res : List FileNode) (visited : List Nat) (errs : List FileError) :
    List FileNode × List Nat × List FileError :=
  match es with
  | .nil => (res, visited, errs)
  | .cons e rest =>
    match e with
    | .file n sz mt =>
      walkEntries rest real depth level
        (res ++ [walkFileNode real n sz mt]) visited errs
    | .dir n rid' cs =>
      match walkDir rid' cs (normalizePath (joinPath real n)) depth (level + 1)
          res visited errs with
      | (res', visited', errs') => walkEntries rest real depth level res' visited' errs'
    | .symlink _ _ => walkEntries rest real depth level res visited errs
termination_by (sizeOf es, 0)
end

mutual
/-- The specification's reading of the walk: the in-order enumeration of
every regular file under an entry, one record per file; symlinks are
traversed by nobody. -/
def specFilesEntry : FsEntry → String → List FileNode
  | .file n sz mt, real => [walkFileNode real n sz mt]
  | .dir n _ cs, real => specFilesList cs (normalizePath (joinPath real n))
  | .symlink _ _, _ => []

/-- In-order file enumeration of an entry list. -/
def specFilesList : FsEntryList → String → List FileNode
  | .nil, _ => []
  | .cons e rest, real => specFilesEntry e real ++ specFilesList rest real
end

mutual
/-- Real-path identifiers of the genuine directories under an entry. -/
def ridsEntry : FsEntry → List Nat
  | .file _ _ _ => []
  | .dir _ rid cs => rid :: ridsList cs
  | .symlink _ _ => []

/-- Real-path identifiers of the genuine directories under an entry
list. -/
def ridsList : FsEntryList → List Nat
  | .nil => []
  | .cons e rest => ridsEntry e ++ ridsList rest
end

/-- A tree with a symlink cycle: root (id 0) holds `a.txt` and `sub`
(id 1), and `sub` holds `b.txt` plus a symlink back to the root. -/
def cyclicChildren : FsEntryList :=
  .cons (.file "a.txt" 1 none)
    (.cons (.dir "sub" 1
      (.cons (.file "b.txt" 2 none) (.cons (.symlink "back" 0) .nil)))
      .nil)

/-- Group lookup in a grouping map (proof artifact mirroring `Map.get`). -/
def lookupG {κ : Type} [DecidableEq κ] : List (κ × List FileNode) → κ → Option (List FileNode)
  | [], _ => none
  | (k, g) :: rest, q => if k = q then some g else lookupG rest q

/-- All extensions of a rule set, across categories in order. -/
def allExts (rules : MediaRules) : List String :=
  (rules.map Prod.snd).flatten

/-- Keys of a grouping map, in order. -/
def keysG {κ : Type} (m : List (κ × List FileNode)) : List κ :=
  m.map Prod.fst

/-! ## Empty-file cleanup (`findEmptyFiles` in `src/src/core/flat.ts`) -/

/-- `FinderState` from `src/utils/types.ts`: the `files` entries are the
reported `(dir, fullPath, size)` records. -/
structure FinderState where
  scanned : Nat
  deleted : Nat
  empty : Nat
  errors : List FileError
  files : List (String × String × Nat)
  deriving DecidableEq, Repr

/-- `FindEmptyOptions` (callbacks and logging omitted: synchronous
observers with no effect on results). -/
structure FindEmptyOptions where
  deleteEmpty : Bool
  dryRun : Bool
  getFiles : Bool
  deriving Repr

/-- The per-file loop of `findEmptyFiles`, threading the state and the
paths actually passed to `fs.unlink` (the operation's only filesystem
mutations). -/
def findEmptyLoop (opts : FindEmptyOptions) (unlink : String → Except String Unit) :
    List FileNode → FinderState → List String → FinderState × List String
  | [], st, acts => (st, acts)
  | f :: rest, st, acts =>
    if f.size = 0 then
      let st1 := { st with empty := st.empty + 1 }
      let st2 := if opts.getFiles then
          { st1 with files := st1.files ++ [(f.dir, f.fullPath, f.size)] }
        else st1
      if opts.deleteEmpty then
        if opts.dryRun then
          findEmptyLoop opts unlink rest { st2 with deleted := st2.deleted + 1 } acts
        else
          match unlink f.fullPath with
          | .ok _ =>
            findEmptyLoop opts unlink rest { st2 with deleted := st2.deleted + 1 }
              (acts ++ [f.fullPath])
          | .error e =>
            findEmptyLoop opts unlink rest
              { st2 with errors := st2.errors ++ [⟨f.fullPath, e⟩] } acts
      else findEmptyLoop opts unlink rest st2 acts
    else findEmptyLoop opts unlink rest st acts

/-- `findEmptyFiles` from `src/src/core/flat.ts`.  The walk outcome is the
`(walkFiles, walkErrors)` input, `isDir` the `isDirectory(root)` probe and
`unlink` the outcome of `fs.unlink` at a path; the outer catch wraps the
not-a-directory throw.  Returns the state and the unlink calls
performed. -/
def findEmptyFiles (isDir : Bool) (walkFiles : List FileNode)
    (walkErrors : List FileError) (root : String) (opts : FindEmptyOptions)
    (unlink : String → Except String Unit) : Except String (FinderState × List String) :=
  if isDir = false then
    .error ("Find empty files operation failed: Path '" ++ root ++ "' is not a directory")
  else
    let st0 : FinderState := ⟨0, 0, 0, walkErrors, []⟩
    if walkFiles = [] then .ok (st0, [])
    else .ok (findEmptyLoop opts unlink walkFiles
      { st0 with scanned := walkFiles.length } [])

/-! ## Flatten (`flatten` in the sibling of `src/src/core/flat.ts`) -/

/-- The per-plan-entry loop of `flatten`, threading the stats and the
`(src, dest)` pairs passed to `safeMove`. -/
def flattenLoop (dryRun : Bool) (mover : Mover) :
    List FlatPlan → OperationStats → List (String × String) → OperationStats × List (String × String)
  | [], stats, acts => (stats, acts)
  | p :: rest, stats, acts =>
    if p.src = p.dest then
      flattenLoop dryRun mover rest { stats with skipped := stats.skipped + 1 } acts
    else if dryRun then
      flattenLoop dryRun mover rest { stats with moved := stats.moved + 1 } acts
    else
      match mover p.src p.dest with
      | .ok _ =>
        flattenLoop dryRun mover rest { stats with moved := stats.moved + 1 }
          (acts ++ [(p.src, p.dest)])
      | .error e =>
        flattenLoop dryRun mover rest
          { stats with errors := stats.errors ++ [⟨p.src, e⟩] } (acts ++ [(p.src, p.dest)])

/-- `flatten`: the walk outcome is the `(walkFiles, walkErrors)` input and
`isDir` the `isDirectory` probe on the normalized path.  Returns the
stats, the `safeMove` calls performed, and whether `deleteEmptyDirs` was
invoked — in the source that call is guarded only by `deleteEmpty`, not by
`dryRun`. -/
def flatten (isDir : Bool) (walkFiles : List FileNode) (walkErrors : List FileError)
    (path : String) (conflict : ConflictStrategy) (dryRun deleteEmpty : Bool)
    (mover : Mover) : Except String (OperationStats × List (String × String) × Bool) :=
  let npath := normalizePath path
  if isDir = false then .error ("Path '" ++ npath ++ "' is not a directory")
  else
    let stats1 : OperationStats := ⟨walkFiles.length, 0, 0, walkErrors⟩
    if walkFiles = [] then .ok (stats1, [], false)
    else if walkFiles.any (fun f => ¬ normalizePath f.dir = npath) = false then
      .ok (stats1, [], false)
    else
      let r := flattenLoop dryRun mover (resolveNames npath walkFiles conflict) stats1 []
      .ok (r.1, r.2, deleteEmpty)

/-! ## Archive (`archive` in `src/src/core/archive.ts`) -/

/-- `ArchiveResult` from `src/src/core/archive.ts`. -/
structure ArchiveResult where
  scanned : Nat
  archived : Nat
  archivedSize : String
  deriving DecidableEq, Repr

/-- The old-files loop of `archive`: sums the sizes, and outside dry-run
moves each file into the archive directory, counting it; a failing
`safeMove` aborts the whole operation wrapped in the outer catch. -/
def archiveLoop (dryRun : Bool) (mover : Mover) (archivePath : String) :
    List FileNode → Nat → Nat → List (String × String) →
    Except String (Nat × Nat × List (String × String))
  | [], total, archived, acts => .ok (total, archived, acts)
  | f :: rest, total, archived, acts =>
    let dest := normalizePath (joinPath archivePath f.name)
    if dryRun then archiveLoop dryRun mover archivePath rest (total + f.size) archived acts
    else
      match mover f.fullPath dest with
      | .ok _ =>
        archiveLoop dryRun mover archivePath rest (total + f.size) (archived + 1)
          (acts ++ [(f.fullPath, dest)])
      | .error e => .error ("Archive operation failed: " ++ e)

/-- `archive` from `src/src/core/archive.ts`.  The walk outcome is the
`walkFiles` input, `now` is `Date.now()` in milliseconds, `fmt` abstracts
`formatSize`, and mtimes are epoch milliseconds.  Returns the result, the
`safeMove` calls performed, and whether the archive directory was ensured
(`fs.access`/`fs.mkdir`), which the source skips in dry run.  Note
`result.archived++` sits inside the `if (!dryRun)` guard, while
`archivedSize` is computed from the summed sizes regardless. -/
def archive (isDir : Bool) (walkFiles : List FileNode) (root archivePath : String)
    (durationDays now : Int) (dryRun : Bool) (mover : Mover) (fmt : Nat → String) :
    Except String (ArchiveResult × List (String × String) × Bool) :=
  if isDir = false then .error ("Path '" ++ root ++ "' is not a directory")
  else if archivePath.data.all (fun c => c.isWhitespace) then
    .error "Archive path is required"
  else if durationDays ≤ 0 then .error "durationDays must be greater than 0"
  else if walkFiles = [] then .ok (⟨0, 0, ""⟩, [], false)
  else
    let thresholdMs := now - durationDays * 86400000
    let oldFiles := walkFiles.filter (fun f =>
      match f.mtime with
      | none => false
      | some t => decide (t < thresholdMs))
    if oldFiles = [] then .ok (⟨walkFiles.length, 0, ""⟩, [], false)
    else
      match archiveLoop dryRun mover archivePath oldFiles 0 0 [] with
      | .error e => .error e
      | .ok (total, archived, acts) =>
        .ok (⟨walkFiles.length, archived, fmt total⟩, acts, !dryRun)

/-! ### Association-list and `buildExtMap` lemmas -/

theorem lookupStr_eq_none_iff (m : List (String × String)) (k : String) :
    lookupStr m k = none ↔ k ∉ keysOf m := by
  induction m with
  | nil => simp [lookupStr, keysOf]
  | cons e rest ih =>
    obtain ⟨k', v'⟩ := e
    by_cases h : k' = k
    · subst h
      simp [lookupStr, keysOf]
    · rw [show lookupStr ((k', v') :: rest) k = lookupStr rest k from by
        simp [lookupStr, h]]
      rw [ih]
      constructor
      · intro hnone hmem
        rcases List.mem_cons.mp hmem with hk | hk
        · exact h hk.symm
        · exact hnone hk
      · intro hmem
        exact fun hk => hmem (List.mem_cons.mpr (Or.inr hk))

theorem lookupStr_append_right (m₁ m₂ : List (String × String)) (k : String) :
    lookupStr m₁ k = none → lookupStr (m₁ ++ m₂) k = lookupStr m₂ k := by
  induction m₁ with
  | nil => intro _; rfl
  | cons e rest ih =>
    intro h
    obtain ⟨k', v'⟩ := e
    by_cases hk : k' = k
    · simp [lookupStr, hk] at h
    · simpa [lookupStr, hk] using ih (by simpa [lookupStr, hk] using h)

theorem lookupStr_of_mem (m : List (String × String)) (k v : String) :
    (k, v) ∈ m → (keysOf m).Nodup → lookupStr m k = some v := by
  induction m with
  | nil => intro h _; cases h
  | cons e rest ih =>
    intro hmem hnd
    obtain ⟨k', v'⟩ := e
    have hcons := List.nodup_cons.mp (show (k' :: keysOf rest).Nodup from hnd)
    rcases List.mem_cons.mp hmem with h | h
    · cases h
      simp [lookupStr]
    · have hk' : k' ≠ k := by
        intro hek
        subst hek
        exact hcons.1 (List.mem_map.mpr ⟨(k', v), h, rfl⟩)
      simp only [lookupStr, if_neg hk']
      exact ih h hcons.2

theorem addExts_ok (folder : String) :
    ∀ (es : List String) (m m' : List (String × String)),
      addExts folder m es = .ok m' →
      m' = m ++ es.map (fun e => (e, folder)) ∧
        ((keysOf m).Nodup → (keysOf m').Nodup)
  | [], m, m', h => by
    simp [addExts] at h
    simp [h]
  | e :: es, m, m', h => by
    simp only [addExts] at h
    split at h
    · exact absurd h (by simp)
    · next hnone =>
      have hlook : lookupStr m e = none := by
        cases hl : lookupStr m e with
        | none => rfl
        | some v => simp [hl] at hnone
      obtain ⟨h1, h2⟩ := addExts_ok folder es (m ++ [(e, folder)]) m' h
      constructor
      · simpa [List.append_assoc] using h1
      · intro hnd
        apply h2
        have hnotin : e ∉ keysOf m := (lookupStr_eq_none_iff m e).mp hlook
        have : (keysOf m ++ [e]).Nodup := by
          rw [List.nodup_append_comm]
          exact List.nodup_cons.mpr ⟨hnotin, hnd⟩
        simpa [keysOf] using this

theorem buildExtMapGo_ok :
    ∀ (rules : MediaRules) (m m' : List (String × String)),
      buildExtMapGo m rules = .ok m' →
      keysOf m' = keysOf m ++ allExts rules ∧
        ((keysOf m).Nodup → (keysOf m').Nodup)
  | [], m, m', h => by
    simp [buildExtMapGo] at h
    simp [h, allExts]
  | (folder, exts) :: rest, m, m', h => by
    simp only [buildExtMapGo] at h
    cases ha : addExts folder m exts with
    | error e => rw [ha] at h; exact absurd h (by simp)
    | ok mid =>
      rw [ha] at h
      obtain ⟨ha1, ha2⟩ := addExts_ok folder exts m mid ha
      obtain ⟨h1, h2⟩ := buildExtMapGo_ok rest mid m' h
      constructor
      · rw [h1, ha1]
        simp [keysOf, allExts, List.append_assoc, Function.comp_def]
      · exact fun hnd => h2 (ha2 hnd)

/-- A successful `buildExtMap` witnesses that no extension occurs twice
across (or within) categories. -/
theorem buildExtMap_ok_nodup (rules : MediaRules) (m : List (String × String))
    (h : buildExtMap rules = .ok m) : (allExts rules).Nodup := by
  obtain ⟨h1, h2⟩ := buildExtMapGo_ok rules [] m h
  have := h2 (by simp [keysOf])
  rw [h1] at this
  simpa [keysOf] using this

/-- A successful `buildExtMap` is the in-order flattening of the per-category
extension-to-folder pairs. -/
theorem buildExtMap_ok_eq (rules : MediaRules) (m : List (String × String))
    (h : buildExtMap rules = .ok m) :
    m = (rules.map (fun p => p.2.map (fun e => (e, p.1)))).flatten := by
  suffices hgen : ∀ (rs : MediaRules) (m₀ m' : List (String × String)),
      buildExtMapGo m₀ rs = .ok m' →
      m' = m₀ ++ (rs.map (fun p => p.2.map (fun e => (e, p.1)))).flatten by
    simpa using hgen rules [] m h
  intro rs
  induction rs with
  | nil => intro m₀ m' h'; simp [buildExtMapGo] at h'; simp [h']
  | cons p rest ih =>
    intro m₀ m' h'
    obtain ⟨folder, exts⟩ := p
    simp only [buildExtMapGo] at h'
    cases ha : addExts folder m₀ exts with
    | error e => rw [ha] at h'; exact absurd h' (by simp)
    | ok mid =>
      rw [ha] at h'
      obtain ⟨ha1, _⟩ := addExts_ok folder exts m₀ mid ha
      have := ih mid m' h'
      rw [this, ha1]
      simp [List.append_assoc]

/-- C1: the safe move operation, called with a destination that already
exists, does **not** fail with `DestinationExistsError`: the
already-exists throw is swallowed by the empty `catch` around the
`fs.access` probe, the rename proceeds, and the existing destination
content `2` is silently replaced by the source content `1`. -/
theorem move_dest_exists_code_bug :
    move [("a", 1), ("b", 2)] "a" "b" = .ok [("b", 1)] := by rfl

theorem keysOf_buildExtMap (rules : MediaRules) (m : List (String × String))
    (h : buildExtMap rules = .ok m) : keysOf m = allExts rules := by
  rw [buildExtMap_ok_eq rules m h, keysOf, allExts, List.map_flatten]
  congr 1
  rw [List.map_map]
  apply List.map_congr_left
  intro p _
  simp [Function.comp_def]

/-- C5 counterexample: with user rules `{Docs: ["TXT"]}` the file
`notes.TXT` — whose extension is listed under `Docs` up to letter case —
is routed to the `others` fallback, because the router lowercases the
file's extension while the rule's extension is matched verbatim. -/
theorem router_rule_case_cex :
    ("Docs", ["TXT"]) ∈ resolveRules (some cexUserRules) ∧
    normalizeExt (extname "notes.TXT") = lowerString "TXT" ∧
    buildExtMap (resolveRules (some cexUserRules)) = .ok cexExtMap ∧
    (routeFile cexExtMap (mkFileNode "root" "notes.TXT" 3) "root").destDir
      = normalizePath (joinPath "root" "others") ∧
    normalizePath (joinPath "root" "others") ≠ normalizePath (joinPath "root" "Docs") := by
  refine ⟨by decide, by decide, by rfl, by rfl, by decide⟩

/-- C5 amended: routing is case-insensitive in the *file's* extension
(which is lowercased by `normalizeExt` at scan time) but matches the
resolved rules' extension strings verbatim: a file is routed to the
category whose list contains its lowercased extension, and to `"others"`
exactly when no category lists it. -/
theorem router_case_insensitive_amended (user : Option MediaRules)
    (m : List (String × String)) (hok : buildExtMap (resolveRules user) = .ok m)
    (baseDir dirName fname : String) (size : Nat) :
    (∀ cat exts, (cat, exts) ∈ resolveRules user →
        normalizeExt (extname fname) ∈ exts →
        (routeFile m (mkFileNode dirName fname size) baseDir).destDir
          = normalizePath (joinPath baseDir cat)) ∧
    ((∀ p ∈ resolveRules user, normalizeExt (extname fname) ∉ p.2) →
      (routeFile m (mkFileNode dirName fname size) baseDir).destDir
        = normalizePath (joinPath baseDir "others")) := by
  have hnd : (keysOf m).Nodup := by
    rw [keysOf_buildExtMap _ m hok]
    exact buildExtMap_ok_nodup _ m hok
  constructor
  · intro cat exts hmem hin
    have hkv : (normalizeExt (extname fname), cat) ∈ m := by
      rw [buildExtMap_ok_eq _ m hok]
      exact List.mem_flatten.mpr
        ⟨exts.map (fun e => (e, cat)),
         List.mem_map.mpr ⟨(cat, exts), hmem, rfl⟩,
         List.mem_map.mpr ⟨_, hin, rfl⟩⟩
    have hlook := lookupStr_of_mem m _ cat hkv hnd
    simp [routeFile, mkFileNode, hlook]
  · intro hnone
    have hnotin : normalizeExt (extname fname) ∉ keysOf m := by
      rw [keysOf_buildExtMap _ m hok]
      intro hmm
      rcases List.mem_flatten.mp hmm with ⟨l, hl, hel⟩
      rcases List.mem_map.mp hl with ⟨p, hp, rfl⟩
      exact hnone p hp hel
    have hlook := (lookupStr_eq_none_iff m _).mpr hnotin
    simp [routeFile, mkFileNode, hlook]

/-- Witness for C5 amended: with the default rules, `photo.JPG` is routed
to `Images` (its extension matches the lowercase rule `jpg` regardless of
the file's case) and `weird.xyz`, listed nowhere, goes to `others`. -/
theorem router_case_insensitive_amended_witness :
    buildExtMap (resolveRules none) = .ok defaultExtMap ∧
    (routeFile defaultExtMap (mkFileNode "root" "photo.JPG" 5) "root").destDir
      = normalizePath (joinPath "root" "Images") ∧
    (routeFile defaultExtMap (mkFileNode "root" "weird.xyz" 5) "root").destDir
      = normalizePath (joinPath "root" "others") := by
  have hok : buildExtMap (resolveRules none) = .ok defaultExtMap := by rfl
  refine ⟨hok, ?_, ?_⟩
  · exact (router_case_insensitive_amended none defaultExtMap hok "root" "root" "photo.JPG" 5).1
      "Images" ["jpg", "jpeg", "png", "gif", "bmp", "svg", "webp", "ico"] (by decide) (by decide)
  · exact (router_case_insensitive_amended none defaultExtMap hok "root" "root" "weird.xyz" 5).2
      (by decide)

/-- C6: if the same extension string appears in two distinct categories of
the resolved rule set, `buildExtMap` fails (never returns a lookup), and
`arrange` on any non-empty file list rejects the operation with that
configuration error while performing no `safeMove` call at all. -/
theorem duplicate_extension_error (user : Option MediaRules) (e : String) (i j : Nat)
    (hi : i < (resolveRules user).length) (hj : j < (resolveRules user).length)
    (hij : i ≠ j)
    (he1 : e ∈ ((resolveRules user).get ⟨i, hi⟩).2)
    (he2 : e ∈ ((resolveRules user).get ⟨j, hj⟩).2) :
    (∀ m, buildExtMap (resolveRules user) ≠ .ok m) ∧
    ∀ (files : List FileNode) (dryRun : Bool) (path : String) (mover : Mover),
      files ≠ [] →
      ∃ msg, arrange true files user dryRun path mover = (.error msg, []) := by
  have hdup : ∀ m, buildExtMap (resolveRules user) ≠ .ok m := by
    intro m hok
    have hnd := buildExtMap_ok_nodup _ m hok
    rw [allExts, List.nodup_flatten] at hnd
    have hpw := hnd.2
    rw [List.pairwise_iff_getElem] at hpw
    rcases lt_trichotomy i j with hlt | heq | hgt
    · have hd := hpw i j (by simpa using hi) (by simpa using hj) hlt
      rw [List.getElem_map, List.getElem_map] at hd
      exact hd (by simpa [List.get_eq_getElem] using he1)
        (by simpa [List.get_eq_getElem] using he2)
    · exact hij heq
    · have hd := hpw j i (by simpa using hj) (by simpa using hi) hgt
      rw [List.getElem_map, List.getElem_map] at hd
      exact hd (by simpa [List.get_eq_getElem] using he2)
        (by simpa [List.get_eq_getElem] using he1)
  refine ⟨hdup, ?_⟩
  intro files dryRun path mover hne
  cases hb : buildExtMap (resolveRules user) with
  | ok m => exact absurd hb (hdup m)
  | error msg =>
    refine ⟨msg, ?_⟩
    simp [arrange, hne, hb]

/-- Witness for C6: `xyz` assigned to both user categories `A` and `B`
makes `buildExtMap` fail and `arrange` reject without moving. -/
theorem duplicate_extension_error_witness :
    (∀ m, buildExtMap (resolveRules (some [("A", ["xyz"]), ("B", ["xyz"])])) ≠ .ok m) ∧
    ∃ msg, arrange true [mkFileNode "r" "f.xyz" 1] (some [("A", ["xyz"]), ("B", ["xyz"])])
      false "r" perfectMover = (.error msg, []) := by
  have h := duplicate_extension_error (some [("A", ["xyz"]), ("B", ["xyz"])]) "xyz" 6 7
    (by decide) (by decide) (by decide) (by decide) (by decide)
  exact ⟨h.1, h.2 [mkFileNode "r" "f.xyz" 1] false "r" perfectMover (by simp)⟩

theorem arrangeLoop_counts (dryRun : Bool) (mover : Mover) :
    ∀ (plan : List MovePlan) (stats : OperationStats) (acts : List (String × String)),
      (arrangeLoop dryRun mover plan stats acts).1.scanned = stats.scanned ∧
      (arrangeLoop dryRun mover plan stats acts).1.moved +
          (arrangeLoop dryRun mover plan stats acts).1.skipped +
          (arrangeLoop dryRun mover plan stats acts).1.errors.length =
        stats.moved + stats.skipped + stats.errors.length + plan.length := by
  intro plan
  induction plan with
  | nil => intro stats acts; simp [arrangeLoop]
  | cons mv rest ih =>
    intro stats acts
    simp only [arrangeLoop]
    split
    · obtain ⟨a, b⟩ := ih { stats with skipped := stats.skipped + 1 } acts
      refine ⟨by simpa using a, ?_⟩
      simp only [List.length_cons]
      simp at b
      omega
    · split
      · obtain ⟨a, b⟩ := ih { stats with moved := stats.moved + 1 } acts
        refine ⟨by simpa using a, ?_⟩
        simp only [List.length_cons]
        simp at b
        omega
      · split
        · obtain ⟨a, b⟩ := ih { stats with moved := stats.moved + 1 }
            (acts ++ [(normalizePath mv.file.fullPath, normalizePath mv.destPath)])
          refine ⟨by simpa using a, ?_⟩
          simp only [List.length_cons]
          simp at b
          omega
        · next e _ =>
          obtain ⟨a, b⟩ := ih { stats with errors := stats.errors ++ [⟨normalizePath mv.file.fullPath, e⟩] }
            (acts ++ [(normalizePath mv.file.fullPath, normalizePath mv.destPath)])
          refine ⟨by simpa using a, ?_⟩
          simp only [List.length_cons]
          simp at b
          omega

/-- C10: whenever `arrange` returns normally, every scanned file is counted
in exactly one of the moved / skipped / per-file-error outcomes:
`scanned = moved + skipped + errors.length`. -/
theorem arrange_stats_partition (isDir : Bool) (files : List FileNode)
    (user : Option MediaRules) (dryRun : Bool) (path : String) (mover : Mover)
    (stats : OperationStats) (acts : List (String × String))
    (h : arrange isDir files user dryRun path mover = (.ok stats, acts)) :
    stats.scanned = stats.moved + stats.skipped + stats.errors.length := by
  unfold arrange at h
  by_cases hdir : isDir = false
  · simp [hdir] at h
  · rw [if_neg hdir] at h
    by_cases hf : files = []
    · rw [if_pos hf] at h
      have hs : stats = ⟨0, 0, 0, []⟩ := by
        have := congrArg Prod.fst h
        simpa using this.symm
      simp [hs]
    · rw [if_neg hf] at h
      cases hb : buildExtMap (resolveRules user) with
      | error msg => rw [hb] at h; simp at h
      | ok extMap =>
        rw [hb] at h
        simp only at h
        have hstats : stats =
            (arrangeLoop dryRun mover (files.map (fun f => routeFile extMap f path))
              { scanned := files.length, moved := 0, skipped := 0, errors := [] } []).1 := by
          have := congrArg Prod.fst h
          simpa using this.symm
        obtain ⟨a, b⟩ := arrangeLoop_counts dryRun mover
          (files.map (fun f => routeFile extMap f path))
          { scanned := files.length, moved := 0, skipped := 0, errors := [] } []
        rw [hstats, a, b]
        simp

/-- Witness for C10 at a concrete run: two files, one routed move
succeeding and one file already in place. -/
theorem arrange_stats_partition_witness :
    ∃ stats acts, arrange true [mkFileNode "r" "a.jpg" 1, mkFileNode "r/Images" "b.jpg" 1]
        none false "r" perfectMover = (.ok stats, acts) ∧
      stats.scanned = stats.moved + stats.skipped + stats.errors.length := by
  refine ⟨⟨2, 1, 1, []⟩, [("r/a.jpg", "r/Images/a.jpg")], by rfl, ?_⟩
  exact arrange_stats_partition true [mkFileNode "r" "a.jpg" 1, mkFileNode "r/Images" "b.jpg" 1]
    none false "r" perfectMover ⟨2, 1, 1, []⟩ [("r/a.jpg", "r/Images/a.jpg")] (by rfl)

/-! ### `resolveNames` characterization -/

theorem lookupNat_nil (q : String) : lookupNat [] q = none := rfl

theorem lookupNat_cons (k : String) (v : Nat) (rest : List (String × Nat)) (q : String) :
    lookupNat ((k, v) :: rest) q = if k = q then some v else lookupNat rest q := rfl

theorem lookupNat_map_eq (k : String) (v : Nat) (q : String) (h : ¬ k = q) :
    ∀ m : List (String × Nat),
      lookupNat (m.map (fun e => if e.1 = k then (k, v) else e)) q = lookupNat m q
  | [] => rfl
  | (k', v') :: rest => by
    rw [List.map_cons]
    by_cases hk : k' = k
    · rw [show (if (k', v').1 = k then (k, v) else (k', v')) = (k, v) from by simp [hk]]
      rw [lookupNat_cons, lookupNat_cons, if_neg h, if_neg (fun hq => h (hk ▸ hq))]
      exact lookupNat_map_eq k v q h rest
    · rw [show (if (k', v').1 = k then (k, v) else (k', v')) = (k', v') from by simp [hk]]
      rw [lookupNat_cons, lookupNat_cons]
      by_cases hq : k' = q
      · rw [if_pos hq, if_pos hq]
      · rw [if_neg hq, if_neg hq]
        exact lookupNat_map_eq k v q h rest

theorem lookupNat_map_self (k : String) (v : Nat) :
    ∀ m : List (String × Nat), (lookupNat m k).isSome →
      lookupNat (m.map (fun e => if e.1 = k then (k, v) else e)) k = some v
  | [], h => by simp [lookupNat] at h
  | (k', v') :: rest, h => by
    rw [List.map_cons]
    by_cases hk : k' = k
    · rw [show (if (k', v').1 = k then (k, v) else (k', v')) = (k, v) from by simp [hk]]
      rw [lookupNat_cons, if_pos rfl]
    · rw [show (if (k', v').1 = k then (k, v) else (k', v')) = (k', v') from by simp [hk]]
      have hrest : (lookupNat rest k).isSome := by
        rw [lookupNat_cons, if_neg hk] at h
        exact h
      rw [lookupNat_cons, if_neg hk]
      exact lookupNat_map_self k v rest hrest

theorem lookupNat_append (q : String) :
    ∀ m m' : List (String × Nat),
      lookupNat (m ++ m') q =
        match lookupNat m q with
        | some c => some c
        | none => lookupNat m' q
  | [], m' => rfl
  | (k, v) :: rest, m' => by
    rw [List.cons_append, lookupNat_cons, lookupNat_cons]
    by_cases hk : k = q
    · rw [if_pos hk, if_pos hk]
    · rw [if_neg hk, if_neg hk]
      exact lookupNat_append q rest m'

theorem any_key_iff_lookupNat (m : List (String × Nat)) (k : String) :
    m.any (fun e => e.1 = k) = true ↔ (lookupNat m k).isSome := by
  induction m with
  | nil => simp [lookupNat]
  | cons e rest ih =>
    obtain ⟨k', v'⟩ := e
    by_cases hk : k' = k
    · simp [lookupNat_cons, hk]
    · simp [lookupNat_cons, hk, ih]

theorem lookupNat_setNat (m : List (String × Nat)) (k : String) (v : Nat) (q : String) :
    lookupNat (setNat m k v) q = if k = q then some v else lookupNat m q := by
  unfold setNat
  by_cases hmem : m.any (fun e => e.1 = k) = true
  · rw [if_pos hmem]
    by_cases hq : k = q
    · subst hq
      rw [if_pos rfl]
      exact lookupNat_map_self k v m ((any_key_iff_lookupNat m k).mp hmem)
    · rw [if_neg hq]
      exact lookupNat_map_eq k v q hq m
  · rw [if_neg hmem]
    have hnone : lookupNat m k = none := by
      cases hl : lookupNat m k with
      | none => rfl
      | some c => exact absurd ((any_key_iff_lookupNat m k).mpr (by simp [hl])) hmem
    rw [lookupNat_append q m [(k, v)]]
    by_cases hq : k = q
    · subst hq
      rw [hnone]
      simp [lookupNat]
    · rw [if_neg hq]
      cases hl : lookupNat m q with
      | some c => simp
      | none => simp [lookupNat, hq]

theorem lookupNat_stepUsed_eq (m : List (String × Nat)) (f : FileNode) (n : String)
    (hn : ¬ finalNameOf f = n) : lookupNat (stepUsed m f) n = lookupNat m n := by
  unfold stepUsed
  cases lookupNat m (finalNameOf f) with
  | some c => rw [lookupNat_setNat, if_neg hn]
  | none => rw [lookupNat_setNat, if_neg hn]

theorem lookupNat_stepUsed_self (m : List (String × Nat)) (f : FileNode) :
    lookupNat (stepUsed m f) (finalNameOf f) =
      match lookupNat m (finalNameOf f) with
      | some c => some (c + 1)
      | none => some 0 := by
  unfold stepUsed
  cases hl : lookupNat m (finalNameOf f) with
  | some c => rw [lookupNat_setNat, if_pos rfl]
  | none => rw [lookupNat_setNat, if_pos rfl]

theorem lookupNat_foldl_stepUsed (n : String) :
    ∀ (files : List FileNode) (m : List (String × Nat)),
      lookupNat (files.foldl stepUsed m) n =
        match lookupNat m n with
        | some c => some (c + countFinal files n)
        | none =>
          if countFinal files n = 0 then none else some (countFinal files n - 1)
  | [], m => by
    simp only [List.foldl_nil, countFinal, List.countP_nil]
    cases lookupNat m n <;> simp
  | f :: rest, m => by
    rw [List.foldl_cons, lookupNat_foldl_stepUsed n rest (stepUsed m f)]
    by_cases hn : finalNameOf f = n
    · have hcount : countFinal (f :: rest) n = countFinal rest n + 1 := by
        simp [countFinal, List.countP_cons, hn]
      have hself := lookupNat_stepUsed_self m f
      rw [hn] at hself
      cases hl : lookupNat m n with
      | some c =>
        rw [hl] at hself
        rw [hself, hcount]
        dsimp only
        congr 1
        omega
      | none =>
        rw [hl] at hself
        rw [hself, hcount]
        dsimp only
        simp
    · have hcount : countFinal (f :: rest) n = countFinal rest n := by
        simp [countFinal, List.countP_cons, hn]
      rw [lookupNat_stepUsed_eq m f n hn, hcount]

theorem usedOf_append_single (P : List FileNode) (f : FileNode) :
    usedOf (P ++ [f]) = stepUsed (usedOf P) f := by
  unfold usedOf
  rw [List.foldl_append]
  rfl

theorem lookupNat_usedOf (P : List FileNode) (n : String) :
    lookupNat (usedOf P) n =
      if countFinal P n = 0 then none else some (countFinal P n - 1) := by
  have h := lookupNat_foldl_stepUsed n P []
  simpa [usedOf, lookupNat] using h

theorem resolveNamesGo_rename_cons (destRoot : String) (used : List (String × Nat))
    (f : FileNode) (rest : List FileNode) :
    resolveNamesGo destRoot .rename used (f :: rest) =
      (match lookupNat used (finalNameOf f) with
       | some c =>
         { src := f.fullPath,
           dest := normalizePath (joinPath destRoot
             (basenameSuffix f.name ("." ++ f.ext) ++ "-(" ++
               toString (if c + 1 = 1 then 2 else c + 1 + 1) ++ ")" ++ ("." ++ f.ext))) }
       | none =>
         { src := f.fullPath, dest := normalizePath (joinPath destRoot (finalNameOf f)) })
      :: resolveNamesGo destRoot .rename (stepUsed used f) rest := by
  cases hl : lookupNat used (finalNameOf f) with
  | some c => simp [resolveNamesGo, stepUsed, hl]
  | none => simp [resolveNamesGo, stepUsed, hl]

theorem resolveNamesGo_rename_spec (destRoot : String) :
    ∀ (rest P : List FileNode) (j : Nat) (hj : j < rest.length),
      (resolveNamesGo destRoot .rename (usedOf P) rest)[j]? =
        some (renameEntry destRoot (rest.get ⟨j, hj⟩)
          (countFinal (P ++ rest.take j) (finalNameOf (rest.get ⟨j, hj⟩)) + 1))
  | [], P, j, hj => absurd hj (by simp)
  | f :: rest, P, 0, hj => by
    have hu := lookupNat_usedOf P (finalNameOf f)
    rw [resolveNamesGo_rename_cons]
    simp only [List.take_zero, List.append_nil, List.get_eq_getElem, List.getElem_cons_zero]
    cases hc : countFinal P (finalNameOf f) with
    | zero =>
      rw [hc] at hu
      rw [if_pos rfl] at hu
      rw [hu]
      simp [renameEntry, finalNameOf, hc]
    | succ c =>
      rw [hc] at hu
      rw [if_neg (Nat.succ_ne_zero c)] at hu
      simp only [Nat.succ_sub_one] at hu
      rw [hu]
      simp only [List.getElem?_cons_zero, Option.some.injEq]
      rcases Nat.eq_zero_or_pos c with h0 | hpos
      · subst h0
        simp [renameEntry, finalNameOf, hc]
      · rw [show (if c + 1 = 1 then 2 else c + 1 + 1) = c + 1 + 1 from by rw [if_neg (by omega)]]
        simp [renameEntry, finalNameOf, hc]
  | f :: rest, P, j + 1, hj => by
    rw [resolveNamesGo_rename_cons]
    simp only [List.getElem?_cons_succ]
    rw [← usedOf_append_single]
    have hj' : j < rest.length := by simpa using hj
    rw [resolveNamesGo_rename_spec destRoot rest (P ++ [f]) j hj']
    rw [List.append_assoc]
    simp [List.get_eq_getElem]

/-- C7: under the `rename` conflict strategy, the file at position `j`
whose computed destination name already occurred `i - 1` times among the
earlier files is planned at `base ++ ext` unchanged when `i = 1` and at
`base-(i).ext` when `i ≥ 2`, with its source path preserved. -/
theorem flatten_rename_collision_naming (destRoot : String) (files : List FileNode)
    (j : Nat) (hj : j < files.length) :
    (resolveNames destRoot files .rename)[j]? =
      some (renameEntry destRoot (files.get ⟨j, hj⟩)
        (countFinal (files.take j) (finalNameOf (files.get ⟨j, hj⟩)) + 1)) := by
  have h := resolveNamesGo_rename_spec destRoot files [] j hj
  simpa [resolveNames, usedOf] using h

/-- Witness for C7: two files named `a.txt` in different subdirectories
are planned at `r/a.txt` and `r/a-(2).txt`, each keeping its source. -/
theorem flatten_rename_collision_naming_witness :
    (resolveNames "r" [flatFileA, flatFileB] .rename)[0]?
        = some { src := "r/x/a.txt", dest := "r/a.txt" } ∧
    (resolveNames "r" [flatFileA, flatFileB] .rename)[1]?
        = some { src := "r/y/a.txt", dest := "r/a-(2).txt" } := by
  constructor
  · have h := flatten_rename_collision_naming "r" [flatFileA, flatFileB] 0 (by simp)
    rw [h]
    rfl
  · have h := flatten_rename_collision_naming "r" [flatFileA, flatFileB] 1 (by simp)
    rw [h]
    rfl

/-! ### `groupByKey` lemmas -/

theorem lookupG_nil {κ : Type} [DecidableEq κ] (q : κ) :
    lookupG ([] : List (κ × List FileNode)) q = none := rfl

theorem lookupG_cons {κ : Type} [DecidableEq κ] (k : κ) (g : List FileNode)
    (rest : List (κ × List FileNode)) (q : κ) :
    lookupG ((k, g) :: rest) q = if k = q then some g else lookupG rest q := rfl

theorem lookupG_insertGroup {κ : Type} [DecidableEq κ] (k : κ) (f : FileNode) (q : κ) :
    ∀ m : List (κ × List FileNode),
      lookupG (insertGroup m k f) q =
        if k = q then some ((lookupG m q).getD [] ++ [f]) else lookupG m q
  | [] => by
    by_cases h : k = q
    · subst h
      simp [insertGroup, lookupG_cons, lookupG_nil]
    · simp [insertGroup, lookupG_cons, lookupG_nil, h]
  | (k', g) :: rest => by
    by_cases hk : k' = k
    · subst hk
      simp only [insertGroup, if_pos rfl]
      by_cases hq : k' = q
      · subst hq
        simp [lookupG_cons]
      · simp [lookupG_cons, hq]
    · simp only [insertGroup, if_neg hk]
      by_cases hq : k' = q
      · subst hq
        simp [lookupG_cons, show ¬ k = k' from fun h => hk h.symm]
      · rw [lookupG_cons, if_neg hq, lookupG_insertGroup k f q rest,
          lookupG_cons, if_neg hq]

theorem lookupG_isSome_iff_mem {κ : Type} [DecidableEq κ] (q : κ) :
    ∀ m : List (κ × List FileNode), (lookupG m q).isSome ↔ q ∈ keysG m
  | [] => by simp [lookupG_nil, keysG]
  | (k, g) :: rest => by
    by_cases hk : k = q
    · simp [lookupG_cons, hk, keysG]
    · simp only [lookupG_cons, if_neg hk, keysG, List.map_cons, List.mem_cons]
      rw [lookupG_isSome_iff_mem q rest]
      constructor
      · intro h
        exact Or.inr h
      · intro h
        rcases h with h | h
        · exact absurd h.symm hk
        · exact h

theorem keysG_insertGroup {κ : Type} [DecidableEq κ] (k : κ) (f : FileNode) :
    ∀ m : List (κ × List FileNode),
      keysG (insertGroup m k f) =
        if (lookupG m k).isSome then keysG m else keysG m ++ [k]
  | [] => by simp [insertGroup, keysG, lookupG_nil]
  | (k', g) :: rest => by
    by_cases hk : k' = k
    · subst hk
      simp [insertGroup, keysG, lookupG_cons]
    · simp only [insertGroup, if_neg hk, keysG, List.map_cons, lookupG_cons,
        if_neg hk]
      have ih := keysG_insertGroup k f rest
      simp only [keysG] at ih
      rw [ih]
      by_cases hs : (lookupG rest k).isSome
      · simp [hs]
      · simp [hs]

theorem keysG_insert_nodup {κ : Type} [DecidableEq κ] (k : κ) (f : FileNode)
    (m : List (κ × List FileNode)) (hnd : (keysG m).Nodup) :
    (keysG (insertGroup m k f)).Nodup := by
  rw [keysG_insertGroup]
  by_cases hs : (lookupG m k).isSome
  · rw [if_pos hs]
    exact hnd
  · rw [if_neg hs]
    rw [List.nodup_append_comm]
    refine List.nodup_cons.mpr ⟨?_, hnd⟩
    intro hmem
    exact hs ((lookupG_isSome_iff_mem k m).mpr hmem)

theorem lookupG_foldl_insert {κ : Type} [DecidableEq κ] (key : FileNode → κ) (q : κ) :
    ∀ (files : List FileNode) (m : List (κ × List FileNode)),
      lookupG (files.foldl (fun m f => insertGroup m (key f) f) m) q =
        match lookupG m q with
        | some g => some (g ++ files.filter (fun f => key f = q))
        | none =>
          if files.filter (fun f => key f = q) = [] then none
          else some (files.filter (fun f => key f = q))
  | [], m => by
    simp only [List.foldl_nil, List.filter_nil]
    cases lookupG m q <;> simp
  | f :: rest, m => by
    rw [List.foldl_cons,
      lookupG_foldl_insert key q rest (insertGroup m (key f) f)]
    by_cases hk : key f = q
    · have hins := lookupG_insertGroup (key f) f q m
      rw [if_pos hk] at hins
      rw [hins]
      have hfil : (f :: rest).filter (fun f => key f = q) =
          f :: rest.filter (fun f => key f = q) := by
        simp [List.filter_cons, hk]
      rw [hfil]
      cases hl : lookupG m q with
      | some g =>
        dsimp only
        simp
      | none =>
        dsimp only
        simp
    · have hins := lookupG_insertGroup (key f) f q m
      rw [if_neg hk] at hins
      rw [hins]
      have hfil : (f :: rest).filter (fun f => key f = q) =
          rest.filter (fun f => key f = q) := by
        simp [List.filter_cons, hk]
      rw [hfil]

theorem keysG_foldl_nodup {κ : Type} [DecidableEq κ] (key : FileNode → κ) :
    ∀ (files : List FileNode) (m : List (κ × List FileNode)),
      (keysG m).Nodup →
      (keysG (files.foldl (fun m f => insertGroup m (key f) f) m)).Nodup
  | [], m, h => h
  | f :: rest, m, h => by
    rw [List.foldl_cons]
    exact keysG_foldl_nodup key rest _ (keysG_insert_nodup (key f) f m h)

theorem lookupG_groupByKey {κ : Type} [DecidableEq κ] (key : FileNode → κ)
    (files : List FileNode) (q : κ) :
    lookupG (groupByKey key files) q =
      if files.filter (fun f => key f = q) = [] then none
      else some (files.filter (fun f => key f = q)) := by
  have h := lookupG_foldl_insert key q files []
  simpa [groupByKey, lookupG_nil] using h

theorem keysG_groupByKey_nodup {κ : Type} [DecidableEq κ] (key : FileNode → κ)
    (files : List FileNode) : (keysG (groupByKey key files)).Nodup :=
  keysG_foldl_nodup key files [] (by simp [keysG])

theorem mem_of_lookupG {κ : Type} [DecidableEq κ] (k : κ) (g : List FileNode) :
    ∀ m : List (κ × List FileNode), lookupG m k = some g → (k, g) ∈ m
  | [], h => by simp [lookupG_nil] at h
  | (k', g') :: rest, h => by
    by_cases hk : k' = k
    · subst hk
      rw [lookupG_cons, if_pos rfl] at h
      cases h
      exact List.mem_cons_self ..
    · rw [lookupG_cons, if_neg hk] at h
      exact List.mem_cons_of_mem _ (mem_of_lookupG k g rest h)

theorem lookupG_of_mem {κ : Type} [DecidableEq κ] (k : κ) (g : List FileNode) :
    ∀ m : List (κ × List FileNode), (k, g) ∈ m → (keysG m).Nodup →
      lookupG m k = some g
  | [], h, _ => absurd h (by simp)
  | (k', g') :: rest, h, hnd => by
    have hcons := List.nodup_cons.mp (show (k' :: keysG rest).Nodup from hnd)
    rcases List.mem_cons.mp h with h1 | h1
    · cases h1
      rw [lookupG_cons, if_pos rfl]
    · have hk : ¬ k' = k := by
        intro hek
        subst hek
        exact hcons.1 (List.mem_map.mpr ⟨(k', g), h1, rfl⟩)
      rw [lookupG_cons, if_neg hk]
      exact lookupG_of_mem k g rest h1 hcons.2

/-- The central `groupByKey` characterization: a pair is in the grouping
iff its group is the (non-empty) filter of the files at its key. -/
theorem mem_groupByKey_iff {κ : Type} [DecidableEq κ] (key : FileNode → κ)
    (files : List FileNode) (k : κ) (g : List FileNode) :
    (k, g) ∈ groupByKey key files ↔
      (¬ files.filter (fun f => key f = k) = [] ∧
        g = files.filter (fun f => key f = k)) := by
  constructor
  · intro h
    have hl := lookupG_of_mem k g _ h (keysG_groupByKey_nodup key files)
    rw [lookupG_groupByKey] at hl
    by_cases hfil : files.filter (fun f => key f = k) = []
    · rw [if_pos hfil] at hl
      cases hl
    · rw [if_neg hfil] at hl
      exact ⟨hfil, (Option.some.inj hl).symm⟩
  · intro ⟨hne, hg⟩
    apply mem_of_lookupG
    rw [lookupG_groupByKey, if_neg hne, hg]

/-! ### Dedupe pipeline lemmas -/

theorem filter_map_comm {α β : Type} (f : α → β) (p : β → Bool) :
    ∀ l : List α, (l.map f).filter p = (l.filter (fun x => p (f x))).map f
  | [] => rfl
  | x :: rest => by
    cases hp : p (f x) <;>
      simp [List.filter_cons, hp, filter_map_comm f p rest]

theorem filter_flatten_eq {α : Type} (p : α → Bool) :
    ∀ L : List (List α), (L.flatten).filter p = (L.map (List.filter p)).flatten
  | [] => rfl
  | g :: rest => by
    simp [List.filter_append, filter_flatten_eq p rest]

theorem flatten_map_single {κ : Type} [DecidableEq κ]
    (F : κ × List FileNode → List FileNode) (k₀ : κ) (g : List FileNode) :
    ∀ ps : List (κ × List FileNode),
      (keysG ps).Nodup →
      (∀ p ∈ ps, F p = if p.1 = k₀ then g else []) →
      k₀ ∈ keysG ps →
      (ps.map F).flatten = g
  | [], _, _, hmem => absurd hmem (by simp [keysG])
  | (k, gr) :: rest, hnd, hF, hmem => by
    have hcons := List.nodup_cons.mp (show (k :: keysG rest).Nodup from hnd)
    by_cases hk : k = k₀
    · subst hk
      rw [List.map_cons, List.flatten_cons, hF (k, gr) (by simp), if_pos rfl]
      have hrest : ∀ p ∈ rest, F p = [] := by
        intro p hp
        rw [hF p (by simp [hp]), if_neg ?_]
        intro h
        exact hcons.1 (h ▸ List.mem_map.mpr ⟨p, hp, rfl⟩)
      have hnil : (rest.map F).flatten = [] := by
        rw [List.flatten_eq_nil_iff]
        intro l hl
        rcases List.mem_map.mp hl with ⟨p, hp, rfl⟩
        exact hrest p hp
      rw [hnil, List.append_nil]
    · rw [List.map_cons, List.flatten_cons, hF (k, gr) (by simp), if_neg hk,
        List.nil_append]
      refine flatten_map_single F k₀ g rest hcons.2
        (fun p hp => hF p (by simp [hp])) ?_
      rcases List.mem_cons.mp (show k₀ ∈ k :: keysG rest from hmem) with h | h
      · exact absurd h.symm hk
      · exact h

theorem filter_pairs_single {κ : Type} [DecidableEq κ]
    (pred : κ × List FileNode → Bool) (k₀ : κ) (g₀ : List FileNode) :
    ∀ ps : List (κ × List FileNode),
      (keysG ps).Nodup →
      (k₀, g₀) ∈ ps →
      pred (k₀, g₀) = true →
      (∀ p ∈ ps, pred p = true → p = (k₀, g₀)) →
      ps.filter pred = [(k₀, g₀)]
  | [], _, hmem, _, _ => absurd hmem (by simp)
  | p :: rest, hnd, hmem, hpred, huniq => by
    have hcons := List.nodup_cons.mp
      (show (p.1 :: keysG rest).Nodup from by
        simpa [keysG] using hnd)
    by_cases hp : p = (k₀, g₀)
    · subst hp
      rw [List.filter_cons_of_pos hpred]
      have hrest : rest.filter pred = [] := by
        rw [List.filter_eq_nil_iff]
        intro q hq hpq
        have hq0 := huniq q (by simp [hq]) hpq
        exact hcons.1 (List.mem_map.mpr ⟨q, hq, by rw [hq0]⟩)
      rw [hrest]
    · have hnp : ¬ pred p = true := fun hpp => hp (huniq p (by simp) hpp)
      rw [List.filter_cons_of_neg hnp]
      have hmem' : (k₀, g₀) ∈ rest := by
        rcases List.mem_cons.mp hmem with h | h
        · exact absurd h.symm hp
        · exact h
      exact filter_pairs_single pred k₀ g₀ rest hcons.2 hmem' hpred
        (fun q hq hpq => huniq q (by simp [hq]) hpq)

theorem exists_two_distinct {α : Type} :
    ∀ l : List α, l.Nodup → 1 < l.length →
      ∃ x, x ∈ l ∧ ∃ y, y ∈ l ∧ ¬ x = y
  | [], _, hlen => absurd hlen (by simp)
  | [x], _, hlen => absurd hlen (by simp)
  | x :: y :: rest, hnd, _ => by
    refine ⟨x, by simp, y, by simp, ?_⟩
    intro hxy
    exact (List.nodup_cons.mp hnd).1 (by simp [hxy])

theorem foldl_add_size (k : Nat) :
    ∀ (l : List FileNode) (s : Nat), (∀ x ∈ l, x.size = k) →
      l.foldl (fun sum f => sum + f.size) s = s + l.length * k
  | [], s, _ => by simp
  | f :: rest, s, h => by
    rw [List.foldl_cons, foldl_add_size k rest (s + f.size)
      (fun x hx => h x (by simp [hx]))]
    rw [h f (by simp), List.length_cons, Nat.succ_mul]
    omega

theorem nodup_flatten_groups {κ : Type} [DecidableEq κ] (keyfn : FileNode → κ)
    (files : List FileNode) (hnd : files.Nodup) :
    ∀ ps : List (κ × List FileNode),
      (keysG ps).Nodup →
      (∀ p ∈ ps, p.2 = files.filter (fun f => keyfn f = p.1)) →
      ((ps.map (fun p => p.2)).flatten).Nodup
  | [], _, _ => by simp
  | (k, g) :: rest, hndk, hchar => by
    have hcons := List.nodup_cons.mp (show (k :: keysG rest).Nodup from hndk)
    rw [List.map_cons, List.flatten_cons]
    rw [List.nodup_append]
    refine ⟨?_, ?_, ?_⟩
    · rw [hchar (k, g) (by simp)]
      exact List.Nodup.filter _ hnd
    · exact nodup_flatten_groups keyfn files hnd rest hcons.2
        (fun p hp => hchar p (by simp [hp]))
    · intro x hx hx'
      have hxk : keyfn x = k := by
        have := hchar (k, g) (by simp)
        rw [this] at hx
        simpa using (List.mem_filter.mp hx).2
      rcases List.mem_flatten.mp hx' with ⟨l, hl, hxl⟩
      rcases List.mem_map.mp hl with ⟨p, hp, rfl⟩
      have hxp : keyfn x = p.1 := by
        have := hchar p (by simp [hp])
        rw [this] at hxl
        simpa using (List.mem_filter.mp hxl).2
      apply hcons.1
      rw [show k = p.1 from hxk ▸ hxp]
      exact List.mem_map.mpr ⟨p, hp, rfl⟩

theorem mem_files_of_mem_flatten_groups {κ : Type} [DecidableEq κ]
    (keyfn : FileNode → κ) (files : List FileNode)
    (ps : List (κ × List FileNode))
    (hchar : ∀ p ∈ ps, p.2 = files.filter (fun f => keyfn f = p.1))
    (x : FileNode) (hx : x ∈ (ps.map (fun p => p.2)).flatten) : x ∈ files := by
  rcases List.mem_flatten.mp hx with ⟨l, hl, hxl⟩
  rcases List.mem_map.mp hl with ⟨p, hp, rfl⟩
  rw [hchar p hp] at hxl
  exact (List.mem_filter.mp hxl).1

/-- C3: with strategy `first`, if exactly the `N ≥ 2` files of content `c`
share their content (every other coincidence of contents is excluded) and
the digest is collision-free, `dedupe` reports one duplicate group,
deletes exactly the `N − 1` non-first ones — the unlink calls are the
paths of all but the first such file in traversal order — and reports
`spaceSaved = (N − 1) × c.length`. -/
theorem dedupe_first_strategy_correct
    (files : List FileNode) (readFile : String → List Nat)
    (hashFn : List Nat → List Nat) (matcher : String → String → Bool)
    (c : List Nat) (N : Nat)
    (hinj : Function.Injective hashFn)
    (hnodup : (files.map (fun f => f.fullPath)).Nodup)
    (hsize : ∀ f ∈ files, f.size = (readFile f.fullPath).length)
    (hN : (files.filter (fun f => readFile f.fullPath = c)).length = N)
    (h2 : 2 ≤ N)
    (honly : ∀ f ∈ files, ∀ g ∈ files, ¬ f = g →
      readFile f.fullPath = readFile g.fullPath → readFile f.fullPath = c) :
    ∃ res,
      dedupe true files [] "root"
          ⟨some .first, none, false, [], false⟩ readFile hashFn matcher =
        (.ok res,
         ((files.filter (fun f => readFile f.fullPath = c)).map
           (fun f => f.fullPath)).drop 1,
         false) ∧
      res.filesDeleted = N - 1 ∧
      res.spaceSaved = (N - 1) * c.length ∧
      res.duplicateGroups = 1 := by
  have hndf : files.Nodup := hnodup.of_map
  -- the duplicate class, decomposed
  obtain ⟨d₀, dtail, hdups_eq⟩ :
      ∃ d₀ dtail, files.filter (fun f => readFile f.fullPath = c) = d₀ :: dtail := by
    cases hd : files.filter (fun f => readFile f.fullPath = c) with
    | nil => rw [hd] at hN; simp at hN; omega
    | cons a b => exact ⟨a, b, rfl⟩
  have hdups_nodup : (d₀ :: dtail).Nodup := hdups_eq ▸ hndf.filter _
  have hdupsmem : ∀ f ∈ d₀ :: dtail,
      f ∈ files ∧ readFile f.fullPath = c := by
    intro f hf
    rw [← hdups_eq] at hf
    have := List.mem_filter.mp hf
    exact ⟨this.1, by simpa using this.2⟩
  have hdupslen : dtail.length + 1 = N := by
    rw [← hN, hdups_eq]; simp
  -- no ignore patterns: the filter keeps every file
  have hfiltered : files.filter
      (fun file => ¬ shouldIgnore file.fullPath ([] : List String) matcher) = files :=
    List.filter_eq_self.mpr (fun a _ => by simp [shouldIgnore])
  have hfne : ¬ files = [] := by
    intro h
    rw [h] at hdups_eq
    simp at hdups_eq
  -- the size bucket of the duplicate class
  have hv₀ : (files.filter (fun f => f.size = c.length)).filter
      (fun f => readFile f.fullPath = c) =
      files.filter (fun f => readFile f.fullPath = c) := by
    rw [List.filter_filter]
    refine List.filter_congr ?_
    intro f hf
    by_cases hp : readFile f.fullPath = c
    · have : f.size = c.length := by rw [hsize f hf, hp]
      simp [hp, this]
    · simp [hp]
  have hv₀len : 1 < (files.filter (fun f => f.size = c.length)).length := by
    have hle := List.length_filter_le
      (fun f => decide (readFile f.fullPath = c))
      (files.filter (fun f => f.size = c.length))
    rw [hv₀, hN] at hle
    omega
  have hv₀mem : ((c.length : Nat), files.filter (fun f => f.size = c.length)) ∈
      groupByKey (fun f => f.size) files := by
    rw [mem_groupByKey_iff]
    refine ⟨?_, rfl⟩
    intro h
    rw [h] at hv₀len
    simp at hv₀len
  -- the multi-member size buckets, in pair form
  have hpotential : ((groupByKey (fun f => f.size) files).map
        (fun p => p.2)).filter (fun g => g.length > 1) =
      ((groupByKey (fun f => f.size) files).filter
        (fun p => p.2.length > 1)).map (fun p => p.2) :=
    filter_map_comm _ _ _
  have hFkeysnd : (keysG ((groupByKey (fun f => f.size) files).filter
      (fun p => p.2.length > 1))).Nodup := by
    refine List.Nodup.sublist ?_ (keysG_groupByKey_nodup (fun f => f.size) files)
    exact List.Sublist.map _ (List.filter_sublist _)
  have hFchar : ∀ p ∈ (groupByKey (fun f => f.size) files).filter
      (fun p => p.2.length > 1),
      p.2 = files.filter (fun f => f.size = p.1) := by
    intro p hp
    obtain ⟨k, g⟩ := p
    exact ((mem_groupByKey_iff _ _ _ _).mp (List.mem_filter.mp hp).1).2
  have hv₀memF : ((c.length : Nat), files.filter (fun f => f.size = c.length)) ∈
      (groupByKey (fun f => f.size) files).filter (fun p => p.2.length > 1) := by
    rw [List.mem_filter]
    exact ⟨hv₀mem, by simpa using hv₀len⟩
  -- the hashed file list and its content filter
  have hflatfilter : ((((groupByKey (fun f => f.size) files).filter
        (fun p => p.2.length > 1)).map (fun p => p.2)).flatten).filter
        (fun f => readFile f.fullPath = c) =
      d₀ :: dtail := by
    rw [filter_flatten_eq, List.map_map]
    rw [← hdups_eq]
    refine flatten_map_single _ c.length _ _ hFkeysnd ?_ ?_
    · intro p hp
      by_cases hk : p.1 = c.length
      · rw [if_pos hk]
        show p.2.filter _ = _
        rw [hFchar p hp, hk, hv₀]
      · rw [if_neg hk]
        show p.2.filter _ = []
        rw [hFchar p hp, List.filter_eq_nil_iff]
        intro f hf hp'
        have hmem := List.mem_filter.mp hf
        apply hk
        have h1 : f.size = p.1 := by simpa using hmem.2
        have h2 : readFile f.fullPath = c := by simpa using hp'
        rw [← h1, hsize f hmem.1, h2]
    · exact List.mem_map.mpr ⟨_, hv₀memF, rfl⟩
  have hflat_sub : ∀ x ∈ (((groupByKey (fun f => f.size) files).filter
        (fun p => p.2.length > 1)).map (fun p => p.2)).flatten, x ∈ files := by
    intro x hx
    exact mem_files_of_mem_flatten_groups (fun f => f.size) files _ hFchar x hx
  have hflat_nodup : ((((groupByKey (fun f => f.size) files).filter
        (fun p => p.2.length > 1)).map (fun p => p.2)).flatten).Nodup :=
    nodup_flatten_groups (fun f => f.size) files hndf _ hFkeysnd hFchar
  -- the digest filter agrees with the content filter
  have hkeyfilter : ∀ L : List FileNode, (∀ x ∈ L, True) →
      L.filter (fun f => hashFn (readFile f.fullPath) = hashFn c) =
      L.filter (fun f => readFile f.fullPath = c) := by
    intro L _
    refine List.filter_congr ?_
    intro f _
    rw [decide_eq_decide]
    exact ⟨fun h => hinj h, fun h => by rw [h]⟩
  -- the single duplicate group
  have hgrpmem : (hashFn c, d₀ :: dtail) ∈
      groupByKey (fun f => hashFn (readFile f.fullPath))
        ((((groupByKey (fun f => f.size) files).filter
          (fun p => p.2.length > 1)).map (fun p => p.2)).flatten) := by
    rw [mem_groupByKey_iff]
    rw [hkeyfilter _ (fun _ _ => trivial), hflatfilter]
    exact ⟨by simp, rfl⟩
  have hdupgroups : (groupByKey (fun f => hashFn (readFile f.fullPath))
        ((((groupByKey (fun f => f.size) files).filter
          (fun p => p.2.length > 1)).map (fun p => p.2)).flatten)).filter
        (fun p => p.2.length > 1) = [(hashFn c, d₀ :: dtail)] := by
    refine filter_pairs_single _ _ _ _
      (keysG_groupByKey_nodup _ _) hgrpmem ?_ ?_
    · have : (d₀ :: dtail).length = N := by simpa using hdupslen
      simp [this]
      omega
    · intro p hp hlen
      obtain ⟨d, g⟩ := p
      have hchar := (mem_groupByKey_iff _ _ _ _).mp hp
      have hgnodup : g.Nodup := by
        rw [hchar.2]
        exact hflat_nodup.filter _
      have hglen : 1 < g.length := by simpa using hlen
      obtain ⟨x, hxg, y, hyg, hxy⟩ := exists_two_distinct g hgnodup hglen
      have hxflat := hchar.2 ▸ hxg
      have hyflat := hchar.2 ▸ hyg
      have hxd : hashFn (readFile x.fullPath) = d := by
        simpa using (List.mem_filter.mp hxflat).2
      have hyd : hashFn (readFile y.fullPath) = d := by
        simpa using (List.mem_filter.mp hyflat).2
      have hxfiles := hflat_sub x (List.mem_filter.mp hxflat).1
      have hyfiles := hflat_sub y (List.mem_filter.mp hyflat).1
      have hxc : readFile x.fullPath = c := by
        refine honly x hxfiles y hyfiles hxy (hinj ?_)
        rw [hxd, hyd]
      have hdc : d = hashFn c := by rw [← hxd, hxc]
      subst hdc
      have : g = d₀ :: dtail := by
        rw [hchar.2, hkeyfilter _ (fun _ _ => trivial), hflatfilter]
      rw [this]
  -- assemble the run
  have hsizes : ∀ x ∈ dtail, x.size = c.length := by
    intro x hx
    have := hdupsmem x (by simp [hx])
    rw [hsize x this.1, this.2]
  refine ⟨{ scannedFiles := files.length, duplicateGroups := 1,
            filesDeleted := 0 + dtail.length,
            spaceSaved := 0 + dtail.foldl (fun sum f => sum + f.size) 0,
            errors := [],
            groups := [⟨hashFn c, d₀, dtail,
              dtail.foldl (fun sum f => sum + f.size) 0⟩] }, ?_, ?_, ?_, rfl⟩
  · -- the full tuple equality
    unfold dedupe
    rw [if_neg (by simp : ¬ (true : Bool) = false)]
    simp only [hfiltered]
    rw [if_neg hfne]
    simp only [hpotential, hdupgroups, List.foldl_cons, List.foldl_nil]
    unfold processGroup
    have hchoose : chooseCanonical (d₀ :: dtail)
        ⟨some .first, none, false, [], false⟩ = .ok d₀ := rfl
    rw [hchoose]
    have hdupsfilter : (d₀ :: dtail).filter (fun f => ¬ f = d₀) = dtail := by
      rw [List.filter_cons_of_neg (by simp)]
      refine List.filter_eq_self.mpr ?_
      intro x hx
      have : ¬ x = d₀ := by
        intro h
        exact (List.nodup_cons.mp hdups_nodup).1 (h ▸ hx)
      simpa using this
    simp only [hdupsfilter]
    rw [hdups_eq]
    rfl
  · show (0 : Nat) + dtail.length = N - 1
    omega
  · show (0 : Nat) + dtail.foldl (fun sum f => sum + f.size) 0 = (N - 1) * c.length
    rw [foldl_add_size c.length dtail 0 hsizes]
    have hN1 : N - 1 = dtail.length := by omega
    rw [hN1]
    omega

/-- Witness for C3: three byte-identical one-byte files; the run deletes
the second and third in traversal order and saves 2 bytes. -/
theorem dedupe_first_strategy_correct_witness :
    ∃ res, dedupe true [dupFileX, dupFileY, dupFileZ] [] "root"
        ⟨some .first, none, false, [], false⟩ (fun _ => [7]) (fun l => l)
        (fun _ _ => false) =
      (.ok res, ["r/y/f.bin", "r/z/f.bin"], false) ∧
      res.filesDeleted = 2 ∧ res.spaceSaved = 2 ∧ res.duplicateGroups = 1 := by
  obtain ⟨res, h1, h2, h3, h4⟩ := dedupe_first_strategy_correct
    [dupFileX, dupFileY, dupFileZ] (fun _ => [7]) (fun l => l) (fun _ _ => false)
    [7] 3 (fun _ _ h => h) (by decide) (by decide) (by decide) (by decide)
    (by decide)
  refine ⟨res, ?_, by rw [h2], by rw [h3]; rfl, h4⟩
  rw [h1]
  rfl

theorem chooseCanonical_first_mem (g : List FileNode) (opts : DedupeOptions)
    (x : FileNode) (hfirst : effectiveStrategy opts = .first)
    (h : chooseCanonical g opts = .ok x) : x ∈ g := by
  unfold chooseCanonical at h
  rw [hfirst] at h
  cases g with
  | nil => simp at h
  | cons a rest =>
    simp only [Except.ok.injEq] at h
    rw [← h]
    simp

theorem processGroup_unlinked_mem (opts : DedupeOptions) (acc : DedupeAcc)
    (hash : List Nat) (group : List FileNode) (s : String)
    (h : s ∈ (processGroup opts acc hash group).unlinked) :
    s ∈ acc.unlinked ∨ ∃ dup, dup ∈ group ∧ s = dup.fullPath := by
  unfold processGroup at h
  cases hc : chooseCanonical group opts with
  | error msg =>
    rw [hc] at h
    exact Or.inl h
  | ok canonical =>
    rw [hc] at h
    rcases List.mem_append.mp h with h' | h'
    · exact Or.inl h'
    · by_cases hd : opts.dryRun
      · rw [if_pos hd] at h'
        simp at h'
      · rw [if_neg hd] at h'
        rcases List.mem_map.mp h' with ⟨dup, hdup, rfl⟩
        exact Or.inr ⟨dup, (List.mem_filter.mp hdup).1, rfl⟩

theorem processGroup_groups_mem (opts : DedupeOptions) (acc : DedupeAcc)
    (hash : List Nat) (group : List FileNode) (grp : DedupeGroupInfo)
    (hfirst : effectiveStrategy opts = .first)
    (h : grp ∈ (processGroup opts acc hash group).res.groups) :
    grp ∈ acc.res.groups ∨
      (grp.hash = hash ∧ grp.canonical ∈ group ∧
        ∀ d ∈ grp.duplicates, d ∈ group) := by
  unfold processGroup at h
  cases hc : chooseCanonical group opts with
  | error msg =>
    rw [hc] at h
    exact Or.inl h
  | ok canonical =>
    rw [hc] at h
    rcases List.mem_append.mp h with h' | h'
    · exact Or.inl h'
    · right
      have hg : grp = ⟨hash, canonical,
          group.filter (fun f => ¬ f = canonical),
          (group.filter (fun f => ¬ f = canonical)).foldl
            (fun sum f => sum + f.size) 0⟩ := by
        simpa using h'
      subst hg
      refine ⟨rfl, chooseCanonical_first_mem group opts canonical hfirst hc, ?_⟩
      intro d hd
      exact (List.mem_filter.mp hd).1

theorem processFold_unlinked_mem (opts : DedupeOptions) :
    ∀ (gs : List (List Nat × List FileNode)) (acc : DedupeAcc) (s : String),
      s ∈ (gs.foldl (fun a p => processGroup opts a p.1 p.2) acc).unlinked →
      s ∈ acc.unlinked ∨ ∃ p, p ∈ gs ∧ ∃ dup, dup ∈ p.2 ∧ s = dup.fullPath
  | [], acc, s, h => Or.inl h
  | p :: rest, acc, s, h => by
    rw [List.foldl_cons] at h
    rcases processFold_unlinked_mem opts rest _ s h with h' | ⟨q, hq, dup, hdup, hs⟩
    · rcases processGroup_unlinked_mem opts acc p.1 p.2 s h' with h'' | ⟨dup, hdup, hs⟩
      · exact Or.inl h''
      · exact Or.inr ⟨p, by simp, dup, hdup, hs⟩
    · exact Or.inr ⟨q, by simp [hq], dup, hdup, hs⟩

theorem processFold_groups_mem (opts : DedupeOptions)
    (hfirst : effectiveStrategy opts = .first) :
    ∀ (gs : List (List Nat × List FileNode)) (acc : DedupeAcc) (grp : DedupeGroupInfo),
      grp ∈ (gs.foldl (fun a p => processGroup opts a p.1 p.2) acc).res.groups →
      grp ∈ acc.res.groups ∨
        ∃ p, p ∈ gs ∧ grp.hash = p.1 ∧ grp.canonical ∈ p.2 ∧
          ∀ d ∈ grp.duplicates, d ∈ p.2
  | [], acc, grp, h => Or.inl h
  | p :: rest, acc, grp, h => by
    rw [List.foldl_cons] at h
    rcases processFold_groups_mem opts hfirst rest _ grp h with h' | ⟨q, hq, hrest⟩
    · rcases processGroup_groups_mem opts acc p.1 p.2 grp hfirst h' with h'' | hp
      · exact Or.inl h''
      · exact Or.inr ⟨p, by simp, hp⟩
    · exact Or.inr ⟨q, by simp [hq], hrest⟩

/-- C4: every reported duplicate group consists of files whose full-content
digests equal the group's digest (grouping is by digest, never by size
alone); consequently, a file whose content no other file shares — for
instance one that merely shares its byte size with another file — never
appears in a duplicate group and is never deleted. -/
theorem dedupe_size_only_safety
    (files : List FileNode) (readFile : String → List Nat)
    (hashFn : List Nat → List Nat) (matcher : String → String → Bool)
    (f : FileNode)
    (hinj : Function.Injective hashFn)
    (hnodup : (files.map (fun g => g.fullPath)).Nodup)
    (hf : f ∈ files)
    (huniq : ∀ g ∈ files, ¬ g = f → ¬ readFile g.fullPath = readFile f.fullPath) :
    ∃ res unl,
      dedupe true files [] "root" ⟨some .first, none, false, [], false⟩
          readFile hashFn matcher = (.ok res, unl, false) ∧
      f.fullPath ∉ unl ∧
      (∀ grp ∈ res.groups, ¬ grp.canonical = f ∧ f ∉ grp.duplicates) ∧
      (∀ grp ∈ res.groups, hashFn (readFile grp.canonical.fullPath) = grp.hash ∧
        ∀ d ∈ grp.duplicates, hashFn (readFile d.fullPath) = grp.hash) := by
  have hndf : files.Nodup := hnodup.of_map
  have hfiltered : files.filter
      (fun file => ¬ shouldIgnore file.fullPath ([] : List String) matcher) = files :=
    List.filter_eq_self.mpr (fun a _ => by simp [shouldIgnore])
  have hfne : ¬ files = [] := by
    intro h
    rw [h] at hf
    simp at hf
  have hFkeysnd : (keysG ((groupByKey (fun f => f.size) files).filter
      (fun p => p.2.length > 1))).Nodup := by
    refine List.Nodup.sublist ?_ (keysG_groupByKey_nodup (fun f => f.size) files)
    exact List.Sublist.map _ (List.filter_sublist _)
  have hFchar : ∀ p ∈ (groupByKey (fun f => f.size) files).filter
      (fun p => p.2.length > 1),
      p.2 = files.filter (fun f => f.size = p.1) := by
    intro p hp
    obtain ⟨k, g⟩ := p
    exact ((mem_groupByKey_iff _ _ _ _).mp (List.mem_filter.mp hp).1).2
  have hflat_sub : ∀ x ∈ (((groupByKey (fun f => f.size) files).filter
        (fun p => p.2.length > 1)).map (fun p => p.2)).flatten, x ∈ files := by
    intro x hx
    exact mem_files_of_mem_flatten_groups (fun f => f.size) files _ hFchar x hx
  have hflat_nodup : ((((groupByKey (fun f => f.size) files).filter
        (fun p => p.2.length > 1)).map (fun p => p.2)).flatten).Nodup :=
    nodup_flatten_groups (fun f => f.size) files hndf _ hFkeysnd hFchar
  -- `f` is in no multi-member digest group
  have hnotin : ∀ d g, (d, g) ∈ groupByKey (fun x => hashFn (readFile x.fullPath))
        ((((groupByKey (fun x => x.size) files).filter
          (fun p => p.2.length > 1)).map (fun p => p.2)).flatten) →
      1 < g.length → f ∉ g := by
    intro d g hmem hlen hfg
    have hchar := (mem_groupByKey_iff _ _ _ _).mp hmem
    have hgnodup : g.Nodup := by
      rw [hchar.2]
      exact hflat_nodup.filter _
    obtain ⟨x, hxg, y, hyg, hxy⟩ := exists_two_distinct g hgnodup hlen
    obtain ⟨z, hzg, hzf⟩ : ∃ z, z ∈ g ∧ ¬ z = f := by
      by_cases hxf : x = f
      · exact ⟨y, hyg, fun h => hxy (hxf.trans h.symm)⟩
      · exact ⟨x, hxg, hxf⟩
    have hzflat := hchar.2 ▸ hzg
    have hfflat := hchar.2 ▸ hfg
    have hzfiles := hflat_sub z (List.mem_filter.mp hzflat).1
    have hzd : hashFn (readFile z.fullPath) = d := by
      simpa using (List.mem_filter.mp hzflat).2
    have hfd : hashFn (readFile f.fullPath) = d := by
      simpa using (List.mem_filter.mp hfflat).2
    exact huniq z hzfiles hzf (hinj (hzd.trans hfd.symm))
  have hpotential : ((groupByKey (fun f => f.size) files).map
        (fun p => p.2)).filter (fun g => g.length > 1) =
      ((groupByKey (fun f => f.size) files).filter
        (fun p => p.2.length > 1)).map (fun p => p.2) :=
    filter_map_comm _ _ _
  refine
    ⟨(List.foldl (fun a p => processGroup ⟨some .first, none, false, [], false⟩ a p.1 p.2)
        ⟨{ scannedFiles := files.length,
           duplicateGroups := ((groupByKey (fun f => hashFn (readFile f.fullPath))
               ((((groupByKey (fun f => f.size) files).filter
                 (fun p => p.2.length > 1)).map (fun p => p.2)).flatten)).filter
             (fun p => p.2.length > 1)).length,
           filesDeleted := 0, spaceSaved := 0, errors := [], groups := [] }, []⟩
        ((groupByKey (fun f => hashFn (readFile f.fullPath))
            ((((groupByKey (fun f => f.size) files).filter
              (fun p => p.2.length > 1)).map (fun p => p.2)).flatten)).filter
          (fun p => p.2.length > 1))).res,
      (List.foldl (fun a p => processGroup ⟨some .first, none, false, [], false⟩ a p.1 p.2)
        ⟨{ scannedFiles := files.length,
           duplicateGroups := ((groupByKey (fun f => hashFn (readFile f.fullPath))
               ((((groupByKey (fun f => f.size) files).filter
                 (fun p => p.2.length > 1)).map (fun p => p.2)).flatten)).filter
             (fun p => p.2.length > 1)).length,
           filesDeleted := 0, spaceSaved := 0, errors := [], groups := [] }, []⟩
        ((groupByKey (fun f => hashFn (readFile f.fullPath))
            ((((groupByKey (fun f => f.size) files).filter
              (fun p => p.2.length > 1)).map (fun p => p.2)).flatten)).filter
          (fun p => p.2.length > 1))).unlinked, ?_, ?_, ?_, ?_⟩
  · unfold dedupe
    rw [if_neg (by simp : ¬ (true : Bool) = false)]
    simp only [hfiltered]
    rw [if_neg hfne]
    simp only [hpotential]
    rfl
  · intro hmem
    rcases processFold_unlinked_mem _ _ _ _ hmem with h' | ⟨p, hp, dup, hdup, hs⟩
    · simp at h'
    · have hfilt := List.mem_filter.mp hp
      obtain ⟨d, g⟩ := p
      have hlen : 1 < g.length := by simpa using hfilt.2
      have hdupflat := ((mem_groupByKey_iff _ _ _ _).mp hfilt.1).2 ▸ hdup
      have hdupfiles := hflat_sub dup (List.mem_filter.mp hdupflat).1
      have hdupf : dup = f :=
        List.inj_on_of_nodup_map hnodup hdupfiles hf hs.symm
      exact hnotin d g hfilt.1 hlen (hdupf ▸ hdup)
  · intro grp hgrp
    rcases processFold_groups_mem ⟨some .first, none, false, [], false⟩ rfl _ _ grp hgrp with
      h' | ⟨p, hp, hhash, hcan, hdups⟩
    · simp at h'
    · have hfilt := List.mem_filter.mp hp
      obtain ⟨d, g⟩ := p
      have hlen : 1 < g.length := by simpa using hfilt.2
      have hfnotin := hnotin d g hfilt.1 hlen
      constructor
      · intro h
        exact hfnotin (h ▸ hcan)
      · intro h
        exact hfnotin (hdups f h)
  · intro grp hgrp
    rcases processFold_groups_mem ⟨some .first, none, false, [], false⟩ rfl _ _ grp hgrp with
      h' | ⟨p, hp, hhash, hcan, hdups⟩
    · simp at h'
    · have hfilt := List.mem_filter.mp hp
      obtain ⟨d, g⟩ := p
      have hchar := (mem_groupByKey_iff _ _ _ _).mp hfilt.1
      constructor
      · have := hchar.2 ▸ hcan
        have hd : hashFn (readFile grp.canonical.fullPath) = d := by
          simpa using (List.mem_filter.mp this).2
        rw [hd, hhash]
      · intro x hx
        have := hchar.2 ▸ hdups x hx
        have hd : hashFn (readFile x.fullPath) = d := by
          simpa using (List.mem_filter.mp this).2
        rw [hd, hhash]

/-- Witness for C4: two files of equal size but different one-byte
contents; neither is deleted and no duplicate group is reported. -/
theorem dedupe_size_only_safety_witness :
    ∃ res unl,
      dedupe true [dupFileX, dupFileY] [] "root"
          ⟨some .first, none, false, [], false⟩
          (fun p => if p = "r/x/f.bin" then [1] else [2]) (fun l => l)
          (fun _ _ => false) = (.ok res, unl, false) ∧
      "r/x/f.bin" ∉ unl ∧
      (∀ grp ∈ res.groups, ¬ grp.canonical = dupFileX ∧ dupFileX ∉ grp.duplicates) := by
  obtain ⟨res, unl, h1, h2, h3, _⟩ := dedupe_size_only_safety
    [dupFileX, dupFileY] (fun p => if p = "r/x/f.bin" then [1] else [2])
    (fun l => l) (fun _ _ => false) dupFileX (fun _ _ h => h)
    (by decide) (by decide) (by decide)
  exact ⟨res, unl, h1, h2, h3⟩

/-! ### Walk lemmas -/

mutual
theorem walkDir_spec (rid : Nat) (children : FsEntryList) (real : String)
    (level : Nat) (res : List FileNode) (visited : List Nat) (errs : List FileError)
    (hnd : (rid :: ridsList children).Nodup)
    (hdisj : ∀ x ∈ rid :: ridsList children, x ∉ visited) :
    ∃ v', walkDir rid children real 0 level res visited errs =
        (res ++ specFilesList children real, v', errs) ∧
      ∀ x, x ∈ v' ↔ x ∈ rid :: ridsList children ∨ x ∈ visited := by
  unfold walkDir
  rw [if_neg (hdisj rid (by simp))]
  rw [if_neg (by simp)]
  have hnd' : (ridsList children).Nodup := (List.nodup_cons.mp hnd).2
  have hdisj' : ∀ x ∈ ridsList children, x ∉ rid :: visited := by
    intro x hx hmem
    rcases List.mem_cons.mp hmem with h | h
    · exact (List.nodup_cons.mp hnd).1 (h ▸ hx)
    · exact hdisj x (by simp [hx]) h
  obtain ⟨v', heq, hv⟩ := walkEntries_spec children real level res (rid :: visited) errs hnd' hdisj'
  refine ⟨v', heq, ?_⟩
  intro x
  rw [hv x]
  simp [List.mem_cons]
  tauto
termination_by (sizeOf children, 1)

theorem walkEntries_spec (es : FsEntryList) (real : String) (level : Nat)
    (res : List FileNode) (visited : List Nat) (errs : List FileError)
    (hnd : (ridsList es).Nodup)
    (hdisj : ∀ x ∈ ridsList es, x ∉ visited) :
    ∃ v', walkEntries es real 0 level res visited errs =
        (res ++ specFilesList es real, v', errs) ∧
      ∀ x, x ∈ v' ↔ x ∈ ridsList es ∨ x ∈ visited := by
  match es with
  | .nil =>
    refine ⟨visited, by simp [walkEntries, specFilesList], ?_⟩
    intro x
    simp [ridsList]
  | .cons e rest =>
    match e with
    | .file n sz mt =>
      have hnd' : (ridsList rest).Nodup := by
        simpa [ridsList, ridsEntry] using hnd
      have hdisj' : ∀ x ∈ ridsList rest, x ∉ visited := by
        intro x hx
        exact hdisj x (by simp [ridsList, ridsEntry, hx])
      obtain ⟨v', heq, hv⟩ := walkEntries_spec rest real level
        (res ++ [walkFileNode real n sz mt]) visited errs hnd' hdisj'
      refine ⟨v', ?_, ?_⟩
      · rw [walkEntries]
        show walkEntries rest real 0 level
          (res ++ [walkFileNode real n sz mt]) visited errs = _
        rw [heq]
        simp [specFilesList, specFilesEntry]
      · intro x
        rw [hv x]
        simp [ridsList, ridsEntry]
    | .dir n rid' cs =>
      have hndsplit := List.nodup_append.mp
        (show ((rid' :: ridsList cs) ++ ridsList rest).Nodup from by
          simpa [ridsList, ridsEntry] using hnd)
      obtain ⟨v1, heq1, hv1⟩ := walkDir_spec rid' cs
        (normalizePath (joinPath real n)) (level + 1) res visited errs
        hndsplit.1
        (fun x hx => hdisj x (by simp [ridsList, ridsEntry] at hx ⊢; tauto))
      have hdisj2 : ∀ x ∈ ridsList rest, x ∉ v1 := by
        intro x hx hmem
        rcases (hv1 x).mp hmem with h | h
        · exact hndsplit.2.2 h hx
        · exact hdisj x (by simp [ridsList, ridsEntry, hx]) h
      obtain ⟨v2, heq2, hv2⟩ := walkEntries_spec rest real level
        (res ++ specFilesList cs (normalizePath (joinPath real n))) v1 errs
        hndsplit.2.1 hdisj2
      refine ⟨v2, ?_, ?_⟩
      · rw [walkEntries]
        show (match walkDir rid' cs (normalizePath (joinPath real n)) 0 (level + 1)
            res visited errs with
          | (res', visited', errs') =>
            walkEntries rest real 0 level res' visited' errs') = _
        rw [heq1]
        show walkEntries rest real 0 level
          (res ++ specFilesList cs (normalizePath (joinPath real n))) v1 errs = _
        rw [heq2]
        simp [specFilesList, specFilesEntry]
      · intro x
        rw [hv2 x]
        constructor
        · intro h
          rcases h with h | h
          · exact Or.inl (by simp [ridsList, ridsEntry]; tauto)
          · rcases (hv1 x).mp h with h' | h'
            · exact Or.inl (by simp [ridsList, ridsEntry]; simp at h'; tauto)
            · exact Or.inr h'
        · intro h
          rcases h with h | h
          · simp [ridsList, ridsEntry] at h
            rcases h with h | h | h
            · exact Or.inr ((hv1 x).mpr (Or.inl (by simp [h])))
            · exact Or.inr ((hv1 x).mpr (Or.inl (by simp [h])))
            · exact Or.inl h
          · exact Or.inr ((hv1 x).mpr (Or.inr h))
    | .symlink n t =>
      have hnd' : (ridsList rest).Nodup := by
        simpa [ridsList, ridsEntry] using hnd
      have hdisj' : ∀ x ∈ ridsList rest, x ∉ visited := by
        intro x hx
        exact hdisj x (by simp [ridsList, ridsEntry, hx])
      obtain ⟨v', heq, hv⟩ := walkEntries_spec rest real level res visited errs hnd' hdisj'
      refine ⟨v', ?_, ?_⟩
      · rw [walkEntries]
        show walkEntries rest real 0 level res visited errs = _
        rw [heq]
        simp [specFilesList, specFilesEntry]
      · intro x
        rw [hv x]
        simp [ridsList, ridsEntry]
termination_by (sizeOf es, 0)
end

/-- C8: over any directory tree — including one whose entries contain
symlinks pointing back at an ancestor directory — the walk with unlimited
depth terminates (it is a total function of the finite tree), records no
error, and returns exactly the one-pass in-order enumeration of the
genuine regular files: no entry is produced twice on account of a cyclic
symlink, because a symlink dirent satisfies neither `isDirectory()` nor
`isFile()` and is never descended, while every genuine directory's real
path is entered into the visited set before its entries are read.  The
hypothesis says real-path identifiers of distinct directories are
distinct, which is what `fs.realpath` guarantees on a real filesystem. -/
theorem walk_symlink_cycle_safe (rootRid : Nat) (children : FsEntryList)
    (rootPath : String) (hnd : (rootRid :: ridsList children).Nodup) :
    ∃ v', walkDir rootRid children rootPath 0 0 [] [] [] =
      (specFilesList children rootPath, v', []) := by
  obtain ⟨v', heq, _⟩ := walkDir_spec rootRid children rootPath 0 [] [] [] hnd
    (by simp)
  exact ⟨v', by simpa using heq⟩

/-- Witness for C8: the cyclic tree walks to exactly its two genuine
files, with no error. -/
theorem walk_symlink_cycle_safe_witness :
    ∃ v', walkDir 0 cyclicChildren "r" 0 0 [] [] [] =
      ([{ dir := "r", ext := "txt", fullPath := "r/a.txt",
          name := "a.txt", size := 1, mtime := none },
        { dir := "r/sub", ext := "txt", fullPath := "r/sub/b.txt",
          name := "b.txt", size := 2, mtime := none }], v', []) := by
  obtain ⟨v', heq⟩ := walk_symlink_cycle_safe 0 cyclicChildren "r" (by decide)
  refine ⟨v', ?_⟩
  rw [heq]
  rfl

/-- C9: `findLargeFiles` at a failing input: the walk reports one
directory-read error, yet the returned state has `errors = none` — the
source never initializes `result.errors`, so `result.errors?.push(...)`
is a no-op and the walk errors are dropped.  The rest of the claim holds
at the same input: `filesPath` is sorted descending and truncated to
`limit = 2`, while `matched = 3` counts every file at or above the
threshold. -/
theorem findLargeFiles_errors_dropped_bug :
    findLargeFiles true
      [⟨"r/a", "a", "", 3145728, "r", none⟩,
       ⟨"r/b", "b", "", 1048576, "r", none⟩,
       ⟨"r/c", "c", "", 5242880, "r", none⟩]
      [⟨"r/locked", "EACCES: permission denied"⟩]
      (fun _ => "MB") "r" 1 2
    = .ok { limit := 2, matched := 3, errors := none,
            filesPath := [⟨"r/c", "MB", 5242880⟩, ⟨"r/a", "MB", 3145728⟩] } := by
  rfl

/-! ### Dry-run frame lemmas -/

theorem arrangeLoop_dry (mover : Mover) :
    ∀ (plan : List MovePlan) (stats : OperationStats) (acts : List (String × String)),
      arrangeLoop true mover plan stats [] =
        ((arrangeLoop false perfectMover plan stats acts).1, []) := by
  intro plan
  induction plan with
  | nil => intro stats acts; simp [arrangeLoop]
  | cons mv rest ih =>
    intro stats acts
    simp only [arrangeLoop]
    by_cases h : normalizePath mv.file.fullPath = normalizePath mv.destPath
    · rw [if_pos h, if_pos h]
      exact ih _ _
    · rw [if_neg h, if_neg h]
      simp only [perfectMover]
      exact ih _ _

theorem arrange_dry_run_frame (isDir : Bool) (files : List FileNode)
    (user : Option MediaRules) (path : String) (mover : Mover) :
    arrange isDir files user true path mover =
      ((arrange isDir files user false path perfectMover).1, []) := by
  unfold arrange
  by_cases hdir : isDir = false
  · rw [if_pos hdir, if_pos hdir]
  · rw [if_neg hdir, if_neg hdir]
    by_cases hfe : files = []
    · rw [if_pos hfe, if_pos hfe]
    · rw [if_neg hfe, if_neg hfe]
      cases hb : buildExtMap (resolveRules user) with
      | error e => rfl
      | ok extMap =>
        dsimp only
        rw [arrangeLoop_dry mover (files.map (fun f => routeFile extMap f path))
          { scanned := files.length, moved := 0, skipped := 0, errors := [] } []]

theorem flattenLoop_dry (mover : Mover) :
    ∀ (plan : List FlatPlan) (stats : OperationStats) (acts : List (String × String)),
      flattenLoop true mover plan stats [] =
        ((flattenLoop false perfectMover plan stats acts).1, []) := by
  intro plan
  induction plan with
  | nil => intro stats acts; simp [flattenLoop]
  | cons p rest ih =>
    intro stats acts
    simp only [flattenLoop]
    by_cases h : p.src = p.dest
    · rw [if_pos h, if_pos h]
      exact ih _ _
    · rw [if_neg h, if_neg h]
      simp only [perfectMover]
      exact ih _ _

theorem flatten_dry_run_frame (isDir : Bool) (walkFiles : List FileNode)
    (walkErrors : List FileError) (path : String) (conflict : ConflictStrategy)
    (deleteEmpty : Bool) (mover : Mover) :
    flatten isDir walkFiles walkErrors path conflict true deleteEmpty mover =
      (flatten isDir walkFiles walkErrors path conflict false deleteEmpty
          perfectMover).map (fun p => (p.1, [], p.2.2)) := by
  unfold flatten
  by_cases hdir : isDir = false
  · rw [if_pos hdir, if_pos hdir]
    rfl
  · rw [if_neg hdir, if_neg hdir]
    by_cases hfe : walkFiles = []
    · rw [if_pos hfe, if_pos hfe]
      rfl
    · rw [if_neg hfe, if_neg hfe]
      by_cases hn : walkFiles.any (fun f => ¬ normalizePath f.dir = normalizePath path) = false
      · rw [if_pos hn, if_pos hn]
        rfl
      · rw [if_neg hn, if_neg hn]
        dsimp only [Except.map]
        rw [flattenLoop_dry mover
          (resolveNames (normalizePath path) walkFiles conflict)
          ⟨walkFiles.length, 0, 0, walkErrors⟩ []]

theorem findEmptyLoop_dry (deleteEmpty getFiles : Bool)
    (unlink : String → Except String Unit) :
    ∀ (files : List FileNode) (st : FinderState) (acts : List String),
      findEmptyLoop ⟨deleteEmpty, true, getFiles⟩ unlink files st [] =
        ((findEmptyLoop ⟨deleteEmpty, false, getFiles⟩ (fun _ => .ok ())
            files st acts).1, []) := by
  intro files
  induction files with
  | nil => intro st acts; simp [findEmptyLoop]
  | cons f rest ih =>
    intro st acts
    simp only [findEmptyLoop]
    by_cases hz : f.size = 0
    · rw [if_pos hz, if_pos hz]
      cases deleteEmpty <;> simp only [Bool.false_eq_true, if_false, if_true] <;>
        exact ih _ _
    · rw [if_neg hz, if_neg hz]
      exact ih _ _

theorem findEmptyFiles_dry_run_frame (isDir : Bool) (walkFiles : List FileNode)
    (walkErrors : List FileError) (root : String) (deleteEmpty getFiles : Bool)
    (unlink : String → Except String Unit) :
    findEmptyFiles isDir walkFiles walkErrors root ⟨deleteEmpty, true, getFiles⟩ unlink =
      (findEmptyFiles isDir walkFiles walkErrors root ⟨deleteEmpty, false, getFiles⟩
          (fun _ => .ok ())).map (fun p => (p.1, [])) := by
  unfold findEmptyFiles
  by_cases hdir : isDir = false
  · rw [if_pos hdir, if_pos hdir]
    rfl
  · rw [if_neg hdir, if_neg hdir]
    by_cases hfe : walkFiles = []
    · rw [if_pos hfe, if_pos hfe]
      rfl
    · rw [if_neg hfe, if_neg hfe]
      dsimp only [Except.map]
      rw [findEmptyLoop_dry deleteEmpty getFiles unlink walkFiles
        { scanned := walkFiles.length, deleted := 0, empty := 0,
          errors := walkErrors, files := [] } []]

theorem archiveLoop_dry (mover : Mover) (archivePath : String) :
    ∀ (files : List FileNode) (total archived : Nat) (acts : List (String × String)),
      archiveLoop true mover archivePath files total archived acts =
        .ok (total + (files.map (fun f => f.size)).sum, archived, acts) := by
  intro files
  induction files with
  | nil => intro total archived acts; simp [archiveLoop]
  | cons f rest ih =>
    intro total archived acts
    rw [show archiveLoop true mover archivePath (f :: rest) total archived acts =
        archiveLoop true mover archivePath rest (total + f.size) archived acts from rfl]
    rw [ih]
    simp only [List.map_cons, List.sum_cons, Nat.add_assoc]

theorem archiveLoop_perfect (archivePath : String) :
    ∀ (files : List FileNode) (total archived : Nat) (acts : List (String × String)),
      archiveLoop false perfectMover archivePath files total archived acts =
        .ok (total + (files.map (fun f => f.size)).sum, archived + files.length,
          acts ++ files.map (fun f =>
            (f.fullPath, normalizePath (joinPath archivePath f.name)))) := by
  intro files
  induction files with
  | nil => intro total archived acts; simp [archiveLoop]
  | cons f rest ih =>
    intro total archived acts
    rw [show archiveLoop false perfectMover archivePath (f :: rest) total archived acts =
        archiveLoop false perfectMover archivePath rest (total + f.size) (archived + 1)
          (acts ++ [(f.fullPath, normalizePath (joinPath archivePath f.name))]) from rfl]
    rw [ih]
    simp only [List.map_cons, List.sum_cons, List.length_cons, List.append_assoc,
      List.singleton_append, Except.ok.injEq, Prod.mk.injEq]
    refine ⟨by omega, by omega, trivial⟩

theorem archive_dry_run_frame (isDir : Bool) (walkFiles : List FileNode)
    (root archivePath : String) (durationDays now : Int) (mover : Mover)
    (fmt : Nat → String) :
    archive isDir walkFiles root archivePath durationDays now true mover fmt =
      (archive isDir walkFiles root archivePath durationDays now false
          perfectMover fmt).map (fun p => (⟨p.1.scanned, 0, p.1.archivedSize⟩, [], false)) := by
  unfold archive
  by_cases hdir : isDir = false
  · rw [if_pos hdir, if_pos hdir]
    rfl
  · rw [if_neg hdir, if_neg hdir]
    by_cases hap : archivePath.data.all (fun c => c.isWhitespace) = true
    · rw [if_pos hap, if_pos hap]
      rfl
    · rw [if_neg hap, if_neg hap]
      by_cases hdd : durationDays ≤ 0
      · rw [if_pos hdd, if_pos hdd]
        rfl
      · rw [if_neg hdd, if_neg hdd]
        by_cases hfe : walkFiles = []
        · rw [if_pos hfe, if_pos hfe]
          rfl
        · rw [if_neg hfe, if_neg hfe]
          dsimp only
          by_cases hof : walkFiles.filter (fun f =>
              match f.mtime with
              | none => false
              | some t => decide (t < now - durationDays * 86400000)) = []
          · rw [if_pos hof, if_pos hof]
            rfl
          · rw [if_neg hof, if_neg hof]
            rw [archiveLoop_dry mover archivePath _ 0 0 [],
              archiveLoop_perfect archivePath _ 0 0 []]
            rfl

theorem processGroup_res_eq (st : Option DedupeStrategy) (cp : Option String)
    (pats : List String) (de : Bool) (r : DedupeResult) (u₁ u₂ : List String)
    (h : List Nat) (g : List FileNode) :
    (processGroup ⟨st, cp, true, pats, de⟩ ⟨r, u₁⟩ h g).res =
      (processGroup ⟨st, cp, false, pats, de⟩ ⟨r, u₂⟩ h g).res := by
  unfold processGroup
  have hc : chooseCanonical g ⟨st, cp, true, pats, de⟩ =
      chooseCanonical g ⟨st, cp, false, pats, de⟩ := rfl
  rw [hc]
  cases chooseCanonical g ⟨st, cp, false, pats, de⟩ <;> rfl

theorem processGroup_dry_unlinked (st : Option DedupeStrategy) (cp : Option String)
    (pats : List String) (de : Bool) (acc : DedupeAcc) (h : List Nat)
    (g : List FileNode) :
    (processGroup ⟨st, cp, true, pats, de⟩ acc h g).unlinked = acc.unlinked := by
  unfold processGroup
  cases chooseCanonical g ⟨st, cp, true, pats, de⟩ <;> simp

theorem processFold_dry (st : Option DedupeStrategy) (cp : Option String)
    (pats : List String) (de : Bool) :
    ∀ (groups : List (List Nat × List FileNode)) (r : DedupeResult) (u : List String),
      groups.foldl (fun acc p => processGroup ⟨st, cp, true, pats, de⟩ acc p.1 p.2) ⟨r, []⟩ =
        ⟨(groups.foldl (fun acc p => processGroup ⟨st, cp, false, pats, de⟩ acc p.1 p.2)
            ⟨r, u⟩).res, []⟩ := by
  intro groups
  induction groups with
  | nil => intro r u; rfl
  | cons g gs ih =>
    intro r u
    simp only [List.foldl_cons]
    have hstep : processGroup ⟨st, cp, true, pats, de⟩ ⟨r, []⟩ g.1 g.2 =
        ⟨(processGroup ⟨st, cp, false, pats, de⟩ ⟨r, u⟩ g.1 g.2).res, []⟩ := by
      have hres := processGroup_res_eq st cp pats de r [] u g.1 g.2
      have hunl := processGroup_dry_unlinked st cp pats de ⟨r, []⟩ g.1 g.2
      cases hd : processGroup ⟨st, cp, true, pats, de⟩ ⟨r, []⟩ g.1 g.2 with
      | mk a b =>
        rw [hd] at hres hunl
        dsimp only at hres hunl
        rw [hres, hunl]
    rw [hstep]
    exact ih ((processGroup ⟨st, cp, false, pats, de⟩ ⟨r, u⟩ g.1 g.2).res)
      ((processGroup ⟨st, cp, false, pats, de⟩ ⟨r, u⟩ g.1 g.2).unlinked)

theorem dedupe_dry_run_frame (isDir : Bool) (walkFiles : List FileNode)
    (walkErrors : List FileError) (root : String) (st : Option DedupeStrategy)
    (cp : Option String) (pats : List String) (de : Bool)
    (readFile : String → List Nat) (hashFn : List Nat → List Nat)
    (matcher : String → String → Bool) :
    dedupe isDir walkFiles walkErrors root ⟨st, cp, true, pats, de⟩ readFile hashFn matcher =
      ((dedupe isDir walkFiles walkErrors root ⟨st, cp, false, pats, de⟩
          readFile hashFn matcher).1, [], false) := by
  unfold dedupe
  by_cases hdir : isDir = false
  · rw [if_pos hdir, if_pos hdir]
  · rw [if_neg hdir, if_neg hdir]
    dsimp only
    by_cases hfe : walkFiles.filter
        (fun file => ¬ shouldIgnore file.fullPath pats matcher = true) = []
    · rw [if_pos hfe, if_pos hfe]
    · rw [if_neg hfe, if_neg hfe]
      rw [processFold_dry st cp pats de _ _ []]
      simp

/-- Counterexample for C2 at `archive`: one file of size 1000 last
modified at epoch 0, `durationDays = 1`, `now` two days in.  The dry run
performs no move and no directory creation but reports `archived = 0`,
while the real run (all moves succeeding) reports `archived = 1`: the dry
run's counter does not report what would have happened, because
`result.archived++` sits inside the `if (!dryRun)` guard. -/
theorem dryRun_archive_counter_cex :
    archive true [⟨"r/old.txt", "old.txt", "txt", 1000, "r", some 0⟩] "r" "arch"
        1 172800000 true perfectMover (fun _ => "1000 B") =
      .ok (⟨1, 0, "1000 B"⟩, [], false) ∧
    archive true [⟨"r/old.txt", "old.txt", "txt", 1000, "r", some 0⟩] "r" "arch"
        1 172800000 false perfectMover (fun _ => "1000 B") =
      .ok (⟨1, 1, "1000 B"⟩, [("r/old.txt", "arch/old.txt")], true) :=
  ⟨rfl, rfl⟩

/-- C2 (corrected).  Dry-run frame invariant: `arrange`, `dedupe`,
`flatten` and `findEmptyFiles` under `dryRun = true` perform no
filesystem mutation (no `safeMove` / `fs.unlink` calls, and no
`deleteEmptyDirs` pruning for `dedupe`) while returning exactly the
stats of the real run in which every move and unlink succeeds.  Two
deviations from the original claim: `flatten` still invokes
`deleteEmptyDirs` when `deleteEmpty` is set — that call is not guarded
by `dryRun` (it removes only empty directories, so the file set is
still unchanged); and `archive` keeps the frame half but breaks the
counter half — its dry run performs no move and no directory creation
yet always reports `archived = 0` instead of the would-be count, with
only `scanned` and `archivedSize` matching the real run. -/
theorem dryRun_invariant_amended :
    (∀ (isDir : Bool) (files : List FileNode) (user : Option MediaRules)
        (path : String) (mover : Mover),
      arrange isDir files user true path mover =
        ((arrange isDir files user false path perfectMover).1, [])) ∧
    (∀ (isDir : Bool) (walkFiles : List FileNode) (walkErrors : List FileError)
        (root : String) (st : Option DedupeStrategy) (cp : Option String)
        (pats : List String) (de : Bool) (readFile : String → List Nat)
        (hashFn : List Nat → List Nat) (matcher : String → String → Bool),
      dedupe isDir walkFiles walkErrors root ⟨st, cp, true, pats, de⟩
          readFile hashFn matcher =
        ((dedupe isDir walkFiles walkErrors root ⟨st, cp, false, pats, de⟩
            readFile hashFn matcher).1, [], false)) ∧
    (∀ (isDir : Bool) (walkFiles : List FileNode) (walkErrors : List FileError)
        (path : String) (conflict : ConflictStrategy) (deleteEmpty : Bool)
        (mover : Mover),
      flatten isDir walkFiles walkErrors path conflict true deleteEmpty mover =
        (flatten isDir walkFiles walkErrors path conflict false deleteEmpty
            perfectMover).map (fun p => (p.1, [], p.2.2))) ∧
    (∀ (isDir : Bool) (walkFiles : List FileNode) (walkErrors : List FileError)
        (root : String) (deleteEmpty getFiles : Bool)
        (unlink : String → Except String Unit),
      findEmptyFiles isDir walkFiles walkErrors root
          ⟨deleteEmpty, true, getFiles⟩ unlink =
        (findEmptyFiles isDir walkFiles walkErrors root
            ⟨deleteEmpty, false, getFiles⟩ (fun _ => .ok ())).map
          (fun p => (p.1, []))) ∧
    (∀ (isDir : Bool) (walkFiles : List FileNode) (root archivePath : String)
        (durationDays now : Int) (mover : Mover) (fmt : Nat → String),
      archive isDir walkFiles root archivePath durationDays now true mover fmt =
        (archive isDir walkFiles root archivePath durationDays now false
            perfectMover fmt).map
          (fun p => (⟨p.1.scanned, 0, p.1.archivedSize⟩, [], false))) :=
  ⟨arrange_dry_run_frame, dedupe_dry_run_frame, flatten_dry_run_frame,
    findEmptyFiles_dry_run_frame, archive_dry_run_frame⟩

end FileArranger
